import Mathlib

/-!
DNS forwarding relay (`main.go`): routing table, domain extractor, dispatcher,
forwarder.

A shallow embedding of the relay.

* Go `byte` values are natural numbers (a well-formed byte is below 256),
  Go strings are lists of bytes.
* A Go slice is its visible elements together with the spare elements of the
  backing array between `len` and `cap`: a slice expression `s[lo:hi]` is in
  range up to `cap`, not `len`, and panics beyond it.
* The `for` loop of `parseDomain` is a step function iterated under a fuel
  bound; running out of fuel is a separate outcome (`none`) that is proved
  never to occur.
* The upstream connections and the listening socket are state machines: each
  call of `Read`, `Write` or `WriteToUDP` takes its result from a script the
  peer chooses, and the handle records what was delivered. The loops of
  `readAll` and `writeAll` run under a fuel bound, since a peer that makes no
  progress keeps them running.
* `sort.Sort` and the address resolvers of package `net` are parameters of
  `Upstreams.Set`.
-/

namespace Unnamed

set_option maxRecDepth 8000

/-- Go `string`: an immutable sequence of bytes, each a natural number (a
well-formed byte is below 256). -/
abbrev GoString := List Nat

/-- The bytes of an ASCII string literal. -/
def str (s : String) : GoString := s.toList.map Char.toNat

/-! ## Go slices of bytes -/

/-- Go `[]byte`: `elems` are the elements below `len`, `spare` the elements of
the backing array from `len` up to `cap`. -/
structure Slice where
  elems : List Nat
  spare : List Nat
deriving DecidableEq, Repr

namespace Slice

/-- Go `len(s)`. -/
def len (s : Slice) : Nat := s.elems.length

/-- Go `cap(s)`. -/
def cap (s : Slice) : Nat := s.elems.length + s.spare.length

/-- The backing array seen from the start of the slice. -/
def backing (s : Slice) : List Nat := s.elems ++ s.spare

/-- Go `s[i]`: in range below `len(s)`, `none` is the run-time panic. -/
def index (s : Slice) (i : Nat) : Option Nat := s.elems[i]?

/-- Go `s[lo:hi]` on a slice: in range when `lo <= hi <= cap(s)`, `none` is the
run-time panic. -/
def slice (s : Slice) (lo hi : Nat) : Option Slice :=
  if lo ≤ hi ∧ hi ≤ s.cap then
    some ⟨(s.backing.drop lo).take (hi - lo), s.backing.drop hi⟩
  else none

/-- Go `s[lo:]` on a slice, that is `s[lo:len(s)]`. -/
def sliceFrom (s : Slice) (lo : Nat) : Option Slice := s.slice lo s.len

end Slice

/-! ## Routing table -/

/-- Transport of an upstream (`type Proto string`, constants `TCP`, `UDP`). -/
inductive Proto
  | TCP
  | UDP
deriving DecidableEq, Repr

/-- A resolved server address (`net.Addr`): textual host part and port. -/
structure Addr where
  host : GoString
  port : Nat
deriving DecidableEq, Repr

/-- Upstream describes a DNS domain, its upstream server, and protocol. -/
structure Upstream where
  Domain : GoString
  Proto : Unnamed.Proto
  Server : Addr
deriving DecidableEq, Repr

/-- Upstreams are a collection of Upstream records. -/
abbrev Upstreams := List Upstream

/-- Go `strings.HasSuffix(s, suffix)`:
`len(s) >= len(suffix) && s[len(s)-len(suffix):] == suffix`. -/
def HasSuffix (s suffix : GoString) : Bool :=
  decide (s.length ≥ suffix.length) && (s.drop (s.length - suffix.length) == suffix)

/-- `Upstreams.Find`: the first entry, in table order, whose `Domain` equals the
queried domain or is a suffix of it. -/
def Find : Upstreams → GoString → Option Upstream
  | [], _ => none
  | u :: rest, domain =>
    if (u.Domain == domain) || HasSuffix domain u.Domain then some u
    else Find rest domain

/-- `Upstreams.Less`: entry `i` sorts before entry `j` when its `Domain` is
strictly longer. Indices outside the table are a run-time panic in Go; the
sort never passes one. -/
def Less (us : Upstreams) (i j : Nat) : Bool :=
  match us[i]?, us[j]? with
  | some a, some b => decide (a.Domain.length > b.Domain.length)
  | _, _ => false

/-! ## Domain extractor -/

/-- `maxDomainLength` of `parseDomain`. -/
def maxDomainLength : Nat := 255

/-- `maxLabelLength` of `parseDomain`. -/
def maxLabelLength : Nat := 63

/-- The two errors `parseDomain` builds. -/
inductive ParseError
  /-- "label length %v exceeds packet size %v" -/
  | labelExceeds (labelEnd packetEnd : Nat)
  /-- "compressed question label not supported" -/
  | compressed
deriving DecidableEq, Repr

/-- Outcome of `parseDomain`: a domain with a nil error, an error with the
empty string, or a run-time panic (slice bounds out of range). -/
inductive ParseResult
  | ok (domain : GoString)
  | error (e : ParseError)
  | panic
deriving DecidableEq, Repr

/-- One evaluation of the loop of `parseDomain`: either the loop goes on with a
new offset and domain, or the function returns. -/
inductive LoopStep
  | next (i : Nat) (domain : GoString)
  | done (r : ParseResult)
deriving DecidableEq, Repr

/-- Loop condition and body of `parseDomain` at offset `i` with the domain
accumulated so far. -/
def parseDomainBody (labels : Slice) (i : Nat) (domain : GoString) : LoopStep :=
  if i < maxDomainLength ∧ i < labels.len then
    match labels.index i with
    | none => .done .panic
    | some size =>
      if size = 0 then .done (.ok domain)
      else if i + size > labels.len then
        .done (.error (.labelExceeds (i + size) labels.len))
      else if size ≥ maxLabelLength then .done (.error .compressed)
      else
        match labels.slice (i + 1) (i + 1 + size) with
        | none => .done .panic
        | some label => .next (i + 1 + size) (domain ++ label.elems ++ str ".")
  else .done (.ok domain)

/-- The loop of `parseDomain`, at most `fuel` evaluations of its condition;
`none` when the fuel does not suffice. -/
def parseDomainLoop : Nat → Slice → Nat → GoString → Option ParseResult
  | 0, _, _, _ => none
  | fuel + 1, labels, i, domain =>
    match parseDomainBody labels i domain with
    | .done r => some r
    | .next j d => parseDomainLoop fuel labels j d

/-- `parseDomain(labels)`: the loop started at offset 0 with the empty domain.
Every evaluation of the body that goes on advances the offset by at least 2
and needs an offset below `maxDomainLength`, so `maxDomainLength + 1`
evaluations are more than the loop can make. -/
def parseDomain (labels : Slice) : Option ParseResult :=
  parseDomainLoop (maxDomainLength + 1) labels 0 []

/-- The wire encoding of a list of labels: every label preceded by its length. -/
def encodeLabels : List GoString → List Nat
  | [] => []
  | l :: ls => l.length :: (l ++ encodeLabels ls)

/-- The dotted form of a list of labels: every label followed by `.`. -/
def dotted : List GoString → GoString
  | [] => []
  | l :: ls => l ++ str "." ++ dotted ls

/-! ## Configuration: `Upstreams.Set` -/

/-- Go `strings.HasPrefix(s, prefix)`:
`len(s) >= len(prefix) && s[:len(prefix)] == prefix`. -/
def startsWith (s pre : GoString) : Bool :=
  decide (s.length ≥ pre.length) && (s.take pre.length == pre)

/-- Go `strings.IndexByte(s, c)`: index of the first `c` in `s`, or -1. -/
def IndexByte : GoString → Nat → Int
  | [], _ => -1
  | b :: bs, c =>
    if b = c then 0
    else
      let r := IndexByte bs c
      if r < 0 then -1 else r + 1

/-- Go `strings.LastIndexByte(s, c)`: index of the last `c` in `s`, or -1. -/
def LastIndexByte : GoString → Nat → Int
  | [], _ => -1
  | b :: bs, c =>
    let r := LastIndexByte bs c
    if r ≥ 0 then r + 1
    else if b = c then 0 else -1

/-- Go `strings.SplitN(s, sep, 2)` for a one-byte separator: `s` alone when it
has no separator, else the text before the first separator and the unsplit
remainder after it. -/
def SplitN2 (s : GoString) (sep : Nat) : List GoString :=
  let i := IndexByte s sep
  if i < 0 then [s] else [s.take i.toNat, s.drop (i.toNat + 1)]

/-- What `Upstreams.Set` takes from its environment: the two address
resolvers of package `net` (`none` is a non-nil error) and `sort.Sort`. -/
structure Env where
  ResolveTCPAddr : GoString → GoString → Option Addr
  ResolveUDPAddr : GoString → GoString → Option Addr
  sortTable : Upstreams → Upstreams

/-- The documented contract of `sort.Sort` for the `Len`, `Less` and `Swap` of
`Upstreams`: the result is a rearrangement of the input in which no later
element is `Less` than an earlier one; the sort need not be stable. -/
def SortContract (sortFn : Upstreams → Upstreams) : Prop :=
  ∀ us : Upstreams, (sortFn us).Perm us ∧
    ∀ i j : Nat, i < j → j < (sortFn us).length → Less (sortFn us) j i = false

/-- The errors `Upstreams.Set` returns; `indexOutOfRange` is the run-time panic
of `address[0]` on an empty address. -/
inductive SetError
  /-- "upstream format: 'domain=host:port/proto" -/
  | format
  /-- "protocol must be udp* or tcp*" -/
  | protocol
  /-- "resolving upstream for %v: %v" -/
  | resolving (domain : GoString)
  | indexOutOfRange
deriving DecidableEq, Repr

/-- Outcome of `Upstreams.Set`: the new table with a nil error, or an error with
the table unchanged. -/
inductive SetResult
  | ok (us : Upstreams)
  | error (e : SetError)
deriving DecidableEq, Repr

/-- The address handed to the resolver: `:53` is appended when the address has
no colon, brackets and `:53` when it has two different colons and does not
start with `[`, `:53` alone when it has two and starts with `[`; `none` is the
run-time panic of `address[0]`. -/
def setAddress (address : GoString) : Option GoString :=
  let lastColon := LastIndexByte address 58
  if lastColon ≥ 0 then
    let firstColon := IndexByte address 58
    if firstColon ≠ lastColon then
      match address[0]? with
      | none => none
      | some c =>
        if c ≠ 91 then some (str "[" ++ address ++ str "]:53")
        else some (address ++ str ":53")
    else some address
  else some (address ++ str ":53")

/-- `Upstreams.Set(value)`: parse `domain=host:port/proto`, resolve the server,
append the new entry and sort the table. -/
def Set (env : Env) (us : Upstreams) (value : GoString) : SetResult :=
  match SplitN2 value 61 with
  | [domain0, rest] =>
    let domain := if !HasSuffix domain0 (str ".") then domain0 ++ str "." else domain0
    let parts := SplitN2 rest 47
    let proto := match parts with
      | [_, p] => p
      | _ => str "udp"
    match setAddress (parts.headD []) with
    | none => .error .indexOutOfRange
    | some address =>
      if startsWith proto (str "tcp") then
        match env.ResolveTCPAddr proto address with
        | none => .error (.resolving domain)
        | some server => .ok (env.sortTable (us ++ [⟨domain, .TCP, server⟩]))
      else if startsWith proto (str "udp") then
        match env.ResolveUDPAddr proto address with
        | none => .error (.resolving domain)
        | some server => .ok (env.sortTable (us ++ [⟨domain, .UDP, server⟩]))
      else .error .protocol
  | _ => .error .format

/-- The table after a sequence of `Set` calls, when all of them succeed. -/
def SetAll (env : Env) : Upstreams → List GoString → SetResult
  | us, [] => .ok us
  | us, v :: vs =>
    match Set env us v with
    | .error e => .error e
    | .ok next => SetAll env next vs

/-! ## Dispatcher -/

/-- Config holds program configuration. -/
structure Config where
  ListenAddress : GoString
  Upstreams : Unnamed.Upstreams
deriving DecidableEq, Repr

/-- Job describes a name resolution parameters from query (the socket handle
is left out). -/
structure Job where
  Config : Unnamed.Config
  Client : Addr
  Query : Slice
deriving DecidableEq, Repr

/-- Go `binary.BigEndian.Uint16(b)`: `uint16(b[1]) | uint16(b[0])<<8`, `none`
is the run-time panic of an index out of range. -/
def Uint16 (b : Slice) : Option Nat :=
  match b.index 1, b.index 0 with
  | some b1, some b0 => some ((b1 ||| (b0 <<< 8)) % 2 ^ 16)
  | _, _ => none

/-- `dnsHeaderSize` of `forward`. -/
def dnsHeaderSize : Nat := 12

/-- Why `forward` returned without starting a resolution. -/
inductive DropReason
  /-- "dropping %v bogus bytes" -/
  | bogusBytes (size : Nat)
  /-- "dropping response packet" -/
  | responsePacket
  /-- "parsing domain: %v" -/
  | parsingDomain (e : ParseError)
  /-- "upstream not found for %v" -/
  | upstreamNotFound (domain : GoString)
deriving DecidableEq, Repr

/-- What one call of `forward` does: it drops the packet, or it starts
`go resolve(job, upstream, logger)`, or it panics (out-of-range access). -/
inductive ForwardResult
  | dropped (r : DropReason)
  | started (job : Job) (upstream : Upstream)
  | panic
deriving DecidableEq, Repr

/-- `forward(job)`; `none` only if the loop of `parseDomain` ran out of fuel. -/
def forward (job : Job) : Option ForwardResult :=
  if job.Query.len < dnsHeaderSize then
    some (.dropped (.bogusBytes job.Query.len))
  else
    match (job.Query.slice 2 4).bind Uint16 with
    | none => some .panic
    | some flags =>
      if flags &&& 0x8000 ≠ 0 then some (.dropped .responsePacket)
      else
        match job.Query.sliceFrom dnsHeaderSize with
        | none => some .panic
        | some labels =>
          match parseDomain labels with
          | none => none
          | some .panic => some .panic
          | some (.error e) => some (.dropped (.parsingDomain e))
          | some (.ok domain) =>
            match Find job.Config.Upstreams domain with
            | none => some (.dropped (.upstreamNotFound domain))
            | some upstream => some (.started job upstream)

/-- `makePacketBuffer()`: 1536 zero bytes, `len` and `cap` both 1536. -/
def makePacketBuffer : Slice := ⟨List.replicate 1536 0, []⟩

/-- `sock.ReadFromUDP(b)` on an arriving datagram: the datagram, cut to
`len(b)` bytes, is copied to the front of `b`; the number of bytes copied is
returned. -/
def ReadFromUDP (datagram : List Nat) (b : Slice) : Slice × Nat :=
  let size := min datagram.length b.len
  (⟨datagram.take size ++ b.elems.drop size, b.spare⟩, size)

/-- The job the receive loop of `main` builds for a datagram:
`Query: request[:size]` over a fresh packet buffer; `none` is a run-time panic. -/
def receive (config : Config) (client : Addr) (datagram : List Nat) : Option Job :=
  let r := ReadFromUDP datagram makePacketBuffer
  (r.1.slice 0 r.2).map fun q => ⟨config, client, q⟩

/-! ## Forwarder -/

/-- What one call of `Read`, `Write` or `WriteToUDP` returns, as the peer and
the operating system decide: a byte count with a nil error, or an error. -/
inductive IOResult
  | ok (n : Nat)
  | fail
deriving DecidableEq, Repr

/-- The results of the successive calls on one handle. -/
abbrev Script := Nat → IOResult

/-- The script that is left after one call. -/
def Script.rest (s : Script) : Script := fun k => s (k + 1)

/-- The listening socket (`job.Socket`): the datagrams written to clients so
far, and the results of the calls of `WriteToUDP` to come. -/
structure Socket where
  sent : List (List Nat × Addr)
  results : Script

/-- `sock.WriteToUDP(b, addr)`: the count returned, whether the error is
non-nil, and the socket afterwards. A call that fails sends nothing. -/
def Socket.WriteToUDP (s : Socket) (b : List Nat) (addr : Addr) : Nat × Bool × Socket :=
  match s.results 0 with
  | .ok n => (min n b.length, false, ⟨s.sent ++ [(b.take n, addr)], s.results.rest⟩)
  | .fail => (0, true, ⟨s.sent, s.results.rest⟩)

/-- A datagram association with an upstream (`net.UDPConn` from `DialUDP`): the
datagrams sent to the upstream, the reply datagrams on their way, and the
results of the calls to come. -/
structure UDPConn where
  sent : List (List Nat)
  inbox : List (List Nat)
  writes : Script
  reads : Script

/-- `conn.Write(p)` on a datagram association. -/
def UDPConn.Write (c : UDPConn) (p : List Nat) : Nat × Bool × UDPConn :=
  match c.writes 0 with
  | .ok n => (min n p.length, false, ⟨c.sent ++ [p.take n], c.inbox, c.writes.rest, c.reads⟩)
  | .fail => (0, true, ⟨c.sent, c.inbox, c.writes.rest, c.reads⟩)

/-- `conn.Read(p)` on a datagram association, `room` being `len(p)`: the next
reply datagram, cut to `room` bytes; `none` when no datagram ever arrives and
the call blocks for good. -/
def UDPConn.Read (c : UDPConn) (room : Nat) : Option (List Nat × Bool × UDPConn) :=
  match c.reads 0 with
  | .fail => some ([], true, ⟨c.sent, c.inbox, c.writes, c.reads.rest⟩)
  | .ok _ =>
    match c.inbox with
    | [] => none
    | d :: ds => some (d.take room, false, ⟨c.sent, ds, c.writes, c.reads.rest⟩)

/-- A stream connection to an upstream (`net.TCPConn` from `DialTCP`): the bytes
delivered to the upstream, the bytes the upstream sends that are not yet read,
and the results of the calls to come. -/
structure TCPConn where
  delivered : List Nat
  pending : List Nat
  writes : Script
  reads : Script

/-- `conn.Write(p)` on a stream: the upstream receives the first `n` bytes of
`p`. -/
def TCPConn.Write (c : TCPConn) (p : List Nat) : Nat × Bool × TCPConn :=
  match c.writes 0 with
  | .ok n =>
    (min n p.length, false, ⟨c.delivered ++ p.take n, c.pending, c.writes.rest, c.reads⟩)
  | .fail => (0, true, ⟨c.delivered, c.pending, c.writes.rest, c.reads⟩)

/-- `conn.Read(p)` on a stream, `room` being `len(p)`: at most `room` of the
pending bytes; the end of the stream is the error `io.EOF`. -/
def TCPConn.Read (c : TCPConn) (room : Nat) : List Nat × Bool × TCPConn :=
  match c.reads 0 with
  | .fail => ([], true, ⟨c.delivered, c.pending, c.writes, c.reads.rest⟩)
  | .ok n =>
    if c.pending = [] then ([], true, ⟨c.delivered, c.pending, c.writes, c.reads.rest⟩)
    else
      (c.pending.take (min n room), false,
        ⟨c.delivered, c.pending.drop (min n room), c.writes, c.reads.rest⟩)

/-- The loop of `readAll(r, size, buffer)` with `totalRead` bytes read: the
error flag, the buffer and the reader afterwards; `none` when the fuel does
not suffice. Each call reads into `buffer[totalRead:size]`. -/
def readAllLoop : Nat → TCPConn → Nat → List Nat → Nat → Option (Bool × List Nat × TCPConn)
  | 0, _, _, _, _ => none
  | fuel + 1, r, size, buffer, totalRead =>
    if totalRead < size then
      match r.Read (size - totalRead) with
      | (_, true, r1) => some (true, buffer, r1)
      | (data, false, r1) =>
        readAllLoop fuel r1 size
          (buffer.take totalRead ++ data ++ buffer.drop (totalRead + data.length))
          (totalRead + data.length)
    else some (false, buffer, r)

/-- `readAll(r, size, buffer)`. -/
def readAll (fuel : Nat) (r : TCPConn) (size : Nat) (buffer : List Nat) :
    Option (Bool × List Nat × TCPConn) :=
  readAllLoop fuel r size buffer 0

/-- The loop of `writeAll(buffer, w)` with `totalWritten` bytes written: the
error flag and the writer afterwards; `none` when the fuel does not suffice.
Each call writes `buffer[totalWritten:]`. -/
def writeAllLoop : Nat → List Nat → TCPConn → Nat → Option (Bool × TCPConn)
  | 0, _, _, _ => none
  | fuel + 1, buffer, w, totalWritten =>
    if totalWritten < buffer.length then
      match w.Write (buffer.drop totalWritten) with
      | (_, true, w1) => some (true, w1)
      | (written, false, w1) => writeAllLoop fuel buffer w1 (totalWritten + written)
    else some (false, w)

/-- `writeAll(buffer, w)`. -/
def writeAll (fuel : Nat) (buffer : List Nat) (w : TCPConn) : Option (Bool × TCPConn) :=
  writeAllLoop fuel buffer w 0

/-- Go `binary.BigEndian.PutUint16(b, v)`: `b[0] = byte(v >> 8)`,
`b[1] = byte(v)`. -/
def PutUint16 (b : List Nat) (v : Nat) : List Nat :=
  (b.set 0 ((v >>> 8) % 256)).set 1 (v % 256)

/-- Go `copy(dst, src)`: the first `min(len(dst), len(src))` bytes of `dst` are
replaced by those of `src`. -/
def copyBytes (dst src : List Nat) : List Nat :=
  src.take dst.length ++ dst.drop src.length

/-- The buffer `resolveTCP` writes to the upstream: `2 + len(query)` zero
bytes, `PutUint16` of `uint16(len(query))` at the front, the query copied
to `buffer[2:]`. -/
def queryBuffer (query : List Nat) : List Nat :=
  let buffer := PutUint16 (List.replicate (2 + query.length) 0) (query.length % 2 ^ 16)
  buffer.take 2 ++ copyBytes (buffer.drop 2) query

/-- What the program dials: `net.DialUDP` and `net.DialTCP`, `none` is a
non-nil error. -/
structure Network where
  DialUDP : Addr → Option UDPConn
  DialTCP : Addr → Option TCPConn

/-- The errors of `resolveUDP` and `resolveTCP`. -/
inductive ResolveError
  /-- "dialing: %v" -/
  | dialing
  /-- "writing query: %v" -/
  | writingQuery
  /-- "only managed to forward %v query bytes of %v" -/
  | queryShort (written total : Nat)
  /-- "reading response size: %v" -/
  | readingResponseSize
  /-- "reading response: %v" -/
  | readingResponse
  /-- "writing response: %v" -/
  | writingResponse
  /-- "only managed to forward %v response bytes of %v" -/
  | responseShort (written total : Nat)
  /-- A run-time panic of an index out of range. -/
  | indexOutOfRange
deriving DecidableEq, Repr

/-- What `resolveUDP` leaves behind: the error returned (`none` is nil), the
association with the upstream if one was dialed, and the listening socket. -/
structure UDPOutcome where
  err : Option ResolveError
  conn : Option UDPConn
  sock : Socket

/-- What `resolveTCP` leaves behind: the error returned (`none` is nil), the
connection to the upstream if one was dialed, and the listening socket. -/
structure TCPOutcome where
  err : Option ResolveError
  conn : Option TCPConn
  sock : Socket

/-- `resolveUDP(job, server)`; `none` when the read of the reply blocks for
good. -/
def resolveUDP (net : Network) (sock : Socket) (job : Job) (server : Addr) :
    Option UDPOutcome :=
  match net.DialUDP server with
  | none => some ⟨some .dialing, none, sock⟩
  | some conn =>
    match conn.Write job.Query.elems with
    | (_, true, c1) => some ⟨some .writingQuery, some c1, sock⟩
    | (written, false, c1) =>
      if written ≠ job.Query.len then
        some ⟨some (.queryShort written job.Query.len), some c1, sock⟩
      else
        match c1.Read makePacketBuffer.len with
        | none => none
        | some (_, true, c2) => some ⟨some .readingResponse, some c2, sock⟩
        | some (data, false, c2) =>
          let response := copyBytes makePacketBuffer.elems data
          let read := data.length
          match sock.WriteToUDP (response.take read) job.Client with
          | (_, true, s1) => some ⟨some .writingResponse, some c2, s1⟩
          | (written, false, s1) =>
            if written ≠ read then some ⟨some (.responseShort written read), some c2, s1⟩
            else some ⟨none, some c2, s1⟩

/-- `resolveTCP(job, server)`; `none` when a loop of `writeAll` or `readAll`
does not end within the fuel. -/
def resolveTCP (fuel : Nat) (net : Network) (sock : Socket) (job : Job) (server : Addr) :
    Option TCPOutcome :=
  match net.DialTCP server with
  | none => some ⟨some .dialing, none, sock⟩
  | some conn =>
    let buffer := queryBuffer job.Query.elems
    match writeAll fuel buffer conn with
    | none => none
    | some (true, c1) => some ⟨some .writingQuery, some c1, sock⟩
    | some (false, c1) =>
      match readAll fuel c1 2 buffer with
      | none => none
      | some (true, _, c2) => some ⟨some .readingResponseSize, some c2, sock⟩
      | some (false, buffer, c2) =>
        match (Slice.slice ⟨buffer, []⟩ 0 2).bind Uint16 with
        | none => some ⟨some .indexOutOfRange, some c2, sock⟩
        | some size =>
          match readAll fuel c2 size (List.replicate size 0) with
          | none => none
          | some (true, _, c3) => some ⟨some .readingResponse, some c3, sock⟩
          | some (false, response, c3) =>
            match sock.WriteToUDP response job.Client with
            | (_, true, s1) => some ⟨some .writingResponse, some c3, s1⟩
            | (written, false, s1) =>
              if written ≠ response.length then
                some ⟨some (.responseShort written response.length), some c3, s1⟩
              else some ⟨none, some c3, s1⟩

/-- `resolve(job, upstream, logger)`: the exchange the protocol of the upstream
asks for; the error logged, if any, and the listening socket afterwards. -/
def resolve (fuel : Nat) (net : Network) (sock : Socket) (job : Job) (upstream : Upstream) :
    Option (Option ResolveError × Socket) :=
  if upstream.Proto = .UDP then
    (resolveUDP net sock job upstream.Server).map fun o => (o.err, o.sock)
  else
    (resolveTCP fuel net sock job upstream.Server).map fun o => (o.err, o.sock)

/-- A stream connection for examples: nothing delivered yet, the given bytes
pending, every write accepts at most `w` bytes and every read returns at most
`r` bytes. -/
def chunkedConn (pending : List Nat) (w r : Nat) : TCPConn :=
  ⟨[], pending, fun _ => .ok w, fun _ => .ok r⟩

/-- A listening socket for examples: nothing sent yet, every write succeeds
in full. -/
def freshSocket : Socket := ⟨[], fun _ => .ok 65535⟩

/-! ## Specification vocabulary -/

/-- The routing-table invariant: entries in order of non-increasing `Domain`
length. -/
abbrev SortedTable (us : Upstreams) : Prop :=
  us.Pairwise fun a b => b.Domain.length ≤ a.Domain.length

/-- An upstream entry for a suffix given as text, over UDP. -/
def entry (suffix : String) (server : Addr) : Upstream := ⟨str suffix, .UDP, server⟩

/-- The order the table is kept in: `a` may stand before `b` when the `Domain`
of `b` is not longer than the `Domain` of `a`. -/
def longerFirst (a b : Upstream) : Prop := b.Domain.length ≤ a.Domain.length

instance : DecidableRel longerFirst := fun a b => Nat.decLe b.Domain.length a.Domain.length

instance : IsTotal Upstream longerFirst := ⟨fun a b => Nat.le_total b.Domain.length a.Domain.length⟩

instance : IsTrans Upstream longerFirst :=
  ⟨fun a b c (hab : b.Domain.length ≤ a.Domain.length) (hbc : c.Domain.length ≤ b.Domain.length) =>
    Nat.le_trans hbc hab⟩

/-- An environment for examples: the resolvers accept every address and keep
its text, the sort is an insertion sort. -/
def insertionEnv : Env :=
  ⟨fun _ address => some ⟨address, 0⟩, fun _ address => some ⟨address, 0⟩,
    fun us => us.insertionSort longerFirst⟩

/-- The loop of `parseDomain` can arrive at offset `i` with domain `d`. -/
inductive Reaches (labels : Slice) : Nat → GoString → Prop
  | start : Reaches labels 0 []
  | step {i j : Nat} {d e : GoString} :
      Reaches labels i d → parseDomainBody labels i d = .next j e → Reaches labels j e

/-- The header of a query: identifier 0x1234, flags 0x0100 (a query with
recursion desired), one question. -/
def queryHeader : List Nat := [0x12, 0x34, 0x01, 0x00, 0, 1, 0, 0, 0, 0, 0, 0]

/-- A routing table with only the default route. -/
def defaultOnly : Config := ⟨str "127.0.0.1:53", [entry "." ⟨str "192.0.2.200", 53⟩]⟩

/-- A job for examples: the query for the name `a` from a client. -/
def exampleJob : Job :=
  ⟨defaultOnly, ⟨str "198.51.100.7", 4242⟩, ⟨queryHeader ++ [1, 97, 0, 0, 1, 0, 1], []⟩⟩

/-- A datagram association for examples: nothing sent yet, the given replies
on their way, every call succeeds in full. -/
def answeringConn (inbox : List (List Nat)) : UDPConn :=
  ⟨[], inbox, fun _ => .ok 65535, fun _ => .ok 65535⟩

/-- The text before the first separator byte; all of the text when it holds
no separator. -/
def beforeFirst (sep : Nat) (s : GoString) : GoString := s.takeWhile fun b => decide (b ≠ sep)

/-- The trailing-dot form of a suffix: `.` is appended exactly when the text
does not already end with `.`. -/
def withTrailingDot (d : GoString) : GoString :=
  if str "." <:+ d then d else d ++ str "."

/-- The value `v` adds the entry `u`: whatever the table holds, `Set` succeeds
on `v` and returns the sorted table with `u` appended. -/
def Adds (env : Env) (v : GoString) (u : Upstream) : Prop :=
  ∀ us : Upstreams, Set env us v = .ok (env.sortTable (us ++ [u]))

/-- A buffer that holds one label with the given length byte, made of that
many bytes `a`, and the terminator. -/
def oneLabel (size : Nat) : Slice := ⟨size :: (List.replicate size 97 ++ [0]), []⟩

/-- A label of 62 bytes. -/
def label62 : GoString := List.replicate 62 97

/-- A name whose last label starts at offset 254, below `maxDomainLength`, and
ends at offset 317. -/
def overlongName : List GoString := [label62, label62, label62, label62, [97], label62]

/-! ## Routing table: lookup -/

theorem HasSuffix_iff (s suffix : GoString) : HasSuffix s suffix = true ↔ suffix <:+ s := by
  unfold HasSuffix
  rw [Bool.and_eq_true, decide_eq_true_eq, beq_iff_eq, List.suffix_iff_eq_drop]
  constructor
  · rintro ⟨_, h⟩
    exact h.symm
  · intro h
    have hle : suffix.length ≤ s.length := by
      have := congrArg List.length h
      rw [List.length_drop] at this
      omega
    exact ⟨hle, h.symm⟩

theorem matches_iff (u : Upstream) (d : GoString) :
    ((u.Domain == d) || HasSuffix d u.Domain) = true ↔ u.Domain <:+ d := by
  rw [Bool.or_eq_true, beq_iff_eq, HasSuffix_iff]
  constructor
  · rintro (h | h)
    · exact h ▸ List.suffix_refl _
    · exact h
  · exact Or.inr

theorem Find_eq_none (us : Upstreams) (d : GoString) :
    Find us d = none ↔ ∀ u ∈ us, ¬ u.Domain <:+ d := by
  induction us with
  | nil => simp [Find]
  | cons u rest ih =>
    unfold Find
    by_cases h : ((u.Domain == d) || HasSuffix d u.Domain) = true
    · rw [if_pos h]
      simp only [List.mem_cons, forall_eq_or_imp, false_iff, not_and, reduceCtorEq]
      intro hu
      exact absurd ((matches_iff u d).1 h) hu
    · rw [if_neg h, ih]
      simp only [List.mem_cons, forall_eq_or_imp]
      rw [matches_iff] at h
      exact ⟨fun hr => ⟨h, hr⟩, fun hr => hr.2⟩

theorem Find_eq_some (us : Upstreams) (d : GoString) (u : Upstream)
    (hs : SortedTable us) (h : Find us d = some u) :
    u ∈ us ∧ u.Domain <:+ d ∧
      ∀ v ∈ us, v.Domain <:+ d → v.Domain.length ≤ u.Domain.length := by
  induction us with
  | nil => simp [Find] at h
  | cons w rest ih =>
    unfold Find at h
    rw [SortedTable, List.pairwise_cons] at hs
    by_cases hw : ((w.Domain == d) || HasSuffix d w.Domain) = true
    · rw [if_pos hw] at h
      cases h
      refine ⟨List.mem_cons_self _ _, (matches_iff _ d).1 hw, ?_⟩
      intro v hv _
      rcases List.mem_cons.1 hv with rfl | hv
      · exact le_rfl
      · exact hs.1 v hv
    · rw [if_neg hw] at h
      obtain ⟨hmem, hsuf, hmax⟩ := ih hs.2 h
      refine ⟨List.mem_cons_of_mem _ hmem, hsuf, ?_⟩
      intro v hv hvd
      rcases List.mem_cons.1 hv with rfl | hv
      · exact absurd ((matches_iff v d).2 hvd) hw
      · exact hmax v hv hvd

/-- C1: on a table sorted by descending suffix length, `Find d` finds an entry
exactly when some entry's `Domain` equals `d` or is a tail of `d`, and the
entry found is an entry of the table whose `Domain` is a tail of `d` and is
at least as long as the `Domain` of every entry that is a tail of `d`. With
the suffixes `.`, `example.com.`, `a.example.com.`: `x.a.example.com.` goes to
`a.example.com.`, `other.com.` to `.`, and `example.com.` to `example.com.`. -/
theorem Find_longest_match (us : Upstreams) (d : GoString) (hs : SortedTable us) :
    ((Find us d).isSome = true ↔ ∃ u ∈ us, u.Domain = d ∨ u.Domain <:+ d) ∧
    (∀ u, Find us d = some u →
      u ∈ us ∧ (u.Domain = d ∨ u.Domain <:+ d) ∧
        ∀ v ∈ us, v.Domain <:+ d → v.Domain.length ≤ u.Domain.length) ∧
    (∀ a b c : Addr,
      SortedTable [entry "a.example.com." a, entry "example.com." b, entry "." c] ∧
      Find [entry "a.example.com." a, entry "example.com." b, entry "." c]
          (str "x.a.example.com.") = some (entry "a.example.com." a) ∧
      Find [entry "a.example.com." a, entry "example.com." b, entry "." c]
          (str "other.com.") = some (entry "." c) ∧
      Find [entry "a.example.com." a, entry "example.com." b, entry "." c]
          (str "example.com.") = some (entry "example.com." b)) := by
  refine ⟨?_, ?_, ?_⟩
  · rw [← not_iff_not, Bool.not_eq_true, Option.not_isSome, Option.isNone_iff_eq_none,
      Find_eq_none]
    constructor
    · rintro h ⟨u, hu, hd | hd⟩
      · exact h u hu (hd ▸ List.suffix_refl _)
      · exact h u hu hd
    · intro h u hu hd
      exact h ⟨u, hu, Or.inr hd⟩
  · intro u hu
    obtain ⟨hmem, hsuf, hmax⟩ := Find_eq_some us d u hs hu
    exact ⟨hmem, Or.inr hsuf, hmax⟩
  · intro a b c
    refine ⟨?_, rfl, rfl, rfl⟩
    simp [SortedTable, entry, str]

/-- C1 at a concrete sorted table and a concrete domain. -/
theorem Find_longest_match_witness :
    SortedTable [entry "example.com." ⟨[], 53⟩, entry "." ⟨[], 54⟩] ∧
    (((Find [entry "example.com." ⟨[], 53⟩, entry "." ⟨[], 54⟩] (str "b.example.com.")).isSome
        = true ↔
      ∃ u ∈ [entry "example.com." ⟨[], 53⟩, entry "." ⟨[], 54⟩],
        u.Domain = str "b.example.com." ∨ u.Domain <:+ str "b.example.com.") ∧
    (∀ u, Find [entry "example.com." ⟨[], 53⟩, entry "." ⟨[], 54⟩] (str "b.example.com.")
        = some u →
      u ∈ [entry "example.com." ⟨[], 53⟩, entry "." ⟨[], 54⟩] ∧
        (u.Domain = str "b.example.com." ∨ u.Domain <:+ str "b.example.com.") ∧
        ∀ v ∈ [entry "example.com." ⟨[], 53⟩, entry "." ⟨[], 54⟩],
          v.Domain <:+ str "b.example.com." → v.Domain.length ≤ u.Domain.length) ∧
    (∀ a b c : Addr,
      SortedTable [entry "a.example.com." a, entry "example.com." b, entry "." c] ∧
      Find [entry "a.example.com." a, entry "example.com." b, entry "." c]
          (str "x.a.example.com.") = some (entry "a.example.com." a) ∧
      Find [entry "a.example.com." a, entry "example.com." b, entry "." c]
          (str "other.com.") = some (entry "." c) ∧
      Find [entry "a.example.com." a, entry "example.com." b, entry "." c]
          (str "example.com.") = some (entry "example.com." b))) :=
  ⟨by decide, Find_longest_match _ _ (by decide)⟩


/-! ## Domain extractor: the loop -/

theorem parseDomainBody_next {labels : Slice} {i j : Nat} {d e : GoString}
    (h : parseDomainBody labels i d = .next j e) :
    ∃ size, labels.index i = some size ∧ i < maxDomainLength ∧ i < labels.len ∧
      size ≠ 0 ∧ i + size ≤ labels.len ∧ size < maxLabelLength ∧
      i + 1 + size ≤ labels.cap ∧ j = i + 1 + size ∧
      e = d ++ (labels.backing.drop (i + 1)).take size ++ str "." := by
  unfold parseDomainBody at h
  split at h
  next hc =>
    split at h
    · cases h
    next size hsize =>
      split at h
      · cases h
      · split at h
        · cases h
        · split at h
          · cases h
          · split at h
            · cases h
            next label hlabel =>
              unfold Slice.slice at hlabel
              split at hlabel
              next hr =>
                cases hlabel
                cases h
                refine ⟨size, hsize, hc.1, hc.2, ‹_›, by omega, by omega, hr.2, rfl, ?_⟩
                simp [Slice.backing]
              · cases hlabel
  · cases h

theorem parseDomainLoop_total (labels : Slice) :
    ∀ (fuel i : Nat) (d : GoString), 0 < fuel → maxDomainLength < i + fuel →
      ∃ r, parseDomainLoop fuel labels i d = some r := by
  intro fuel
  induction fuel with
  | zero =>
    intro i d h0
    exact absurd h0 (Nat.lt_irrefl 0)
  | succ n ih =>
    intro i d _ h
    unfold parseDomainLoop
    cases hb : parseDomainBody labels i d with
    | done r => exact ⟨r, rfl⟩
    | next j e =>
      obtain ⟨size, -, hi, -, -, -, -, -, hj, -⟩ := parseDomainBody_next hb
      simp only
      exact ih j e (by omega) (by omega)

theorem parseDomainLoop_mono (labels : Slice) :
    ∀ (fuel : Nat) (i : Nat) (d : GoString) (r : ParseResult),
      parseDomainLoop fuel labels i d = some r →
      parseDomainLoop (fuel + 1) labels i d = some r := by
  intro fuel
  induction fuel with
  | zero =>
    intro i d r h
    simp [parseDomainLoop] at h
  | succ n ih =>
    intro i d r h
    unfold parseDomainLoop at h ⊢
    cases hb : parseDomainBody labels i d with
    | done r0 =>
      rw [hb] at h
      exact h
    | next j e =>
      rw [hb] at h
      exact ih j e r h

/-- From every state the loop arrives at, the full fuel still decides the
result of `parseDomain`. -/
theorem parseDomain_of_reaches {labels : Slice} {i : Nat} {d : GoString}
    (h : Reaches labels i d) :
    parseDomainLoop (maxDomainLength + 1) labels i d = parseDomain labels := by
  induction h with
  | start => rfl
  | step hr hb ih =>
    rename_i i j d e
    rw [← ih]
    obtain ⟨size, -, -, -, -, -, -, -, hj, -⟩ := parseDomainBody_next hb
    obtain ⟨r, hr⟩ := parseDomainLoop_total labels maxDomainLength j e
      (by unfold maxDomainLength; omega) (by omega)
    rw [parseDomainLoop_mono labels _ j e r hr]
    conv_rhs => unfold parseDomainLoop
    rw [hb]
    exact hr.symm

/-- The loop always returns: `parseDomain` never runs out of fuel. -/
theorem parseDomain_total (labels : Slice) : ∃ r, parseDomain labels = some r :=
  parseDomainLoop_total labels _ 0 [] (by omega) (by omega)

/-! ## Domain extractor: round trip -/

theorem encodeLabels_length_ge (ls : List GoString) (h : ∀ l ∈ ls, 1 ≤ l.length) :
    2 * ls.length ≤ (encodeLabels ls).length := by
  induction ls with
  | nil => simp [encodeLabels]
  | cons l ls ih =>
    have h1 := h l (List.mem_cons_self _ _)
    have h2 := ih fun x hx => h x (List.mem_cons_of_mem _ hx)
    simp only [encodeLabels, List.length_cons, List.length_append]
    omega

/-- The body of the loop at the length byte of a whole label. -/
theorem parseDomainBody_label (pre l tail spare d : List Nat)
    (hi : pre.length < maxDomainLength) (h1 : 1 ≤ l.length) (h2 : l.length < maxLabelLength) :
    parseDomainBody ⟨pre ++ (l.length :: l) ++ tail, spare⟩ pre.length d
      = .next (pre.length + 1 + l.length) (d ++ l ++ str ".") := by
  have hidx : (pre ++ (l.length :: l) ++ tail)[pre.length]? = some l.length := by
    rw [List.append_assoc, List.getElem?_append_right (le_refl _)]
    simp
  have hdrop : ((pre ++ (l.length :: l) ++ tail ++ spare).drop (pre.length + 1)).take l.length
      = l := by
    have : pre ++ (l.length :: l) ++ tail ++ spare
        = (pre ++ [l.length]) ++ (l ++ (tail ++ spare)) := by simp
    rw [this, List.drop_append_of_le_length (by simp)]
    have hlen : (pre ++ [l.length]).length = pre.length + 1 := by simp
    rw [← hlen, List.drop_length, List.nil_append, List.take_left']
    rfl
  unfold parseDomainBody
  simp only [Slice.len, Slice.index, Slice.slice, Slice.cap, Slice.backing, hidx,
    List.length_append, List.length_cons]
  rw [if_pos ⟨hi, by omega⟩, if_neg (by omega), if_neg (by omega), if_neg (by omega),
    if_pos ⟨by omega, by omega⟩]
  simp only [Nat.add_sub_cancel_left, hdrop]

theorem parseDomainLoop_roundtrip (rest spare : List Nat)
    (hrest : rest = [] ∨ ∃ more, rest = 0 :: more) :
    ∀ (ls : List GoString) (pre : List Nat) (d : GoString) (fuel : Nat),
      (∀ l ∈ ls, 1 ≤ l.length ∧ l.length ≤ 62) →
      pre.length + (encodeLabels ls).length ≤ 255 →
      ls.length < fuel →
      parseDomainLoop fuel ⟨pre ++ encodeLabels ls ++ rest, spare⟩ pre.length d
        = some (.ok (d ++ dotted ls)) := by
  intro ls
  induction ls with
  | nil =>
    intro pre d fuel _ _ hfuel
    obtain ⟨n, rfl⟩ : ∃ n, fuel = n + 1 := ⟨fuel - 1, by simp at hfuel; omega⟩
    unfold parseDomainLoop
    have hb : parseDomainBody ⟨pre ++ encodeLabels [] ++ rest, spare⟩ pre.length d
        = .done (.ok d) := by
      unfold parseDomainBody
      rcases hrest with rfl | ⟨more, rfl⟩
      · simp [encodeLabels, Slice.len]
      · have hidx : (pre ++ 0 :: more)[pre.length]? = some 0 := by
          rw [List.getElem?_append_right (le_refl _)]
          simp
        by_cases hi : pre.length < maxDomainLength
        · simp [encodeLabels, Slice.len, Slice.index, hi, hidx]
        · simp [hi]
    rw [hb]
    simp [dotted]
  | cons l ls ih =>
    intro pre d fuel hlab henc hfuel
    obtain ⟨n, rfl⟩ : ∃ n, fuel = n + 1 := ⟨fuel - 1, by simp at hfuel; omega⟩
    have hl := hlab l (List.mem_cons_self _ _)
    simp only [encodeLabels, List.length_cons, List.length_append] at henc
    have hslice : pre ++ encodeLabels (l :: ls) ++ rest
        = pre ++ (l.length :: l) ++ (encodeLabels ls ++ rest) := by
      simp [encodeLabels]
    have hnext : pre ++ encodeLabels (l :: ls) ++ rest
        = (pre ++ (l.length :: l)) ++ encodeLabels ls ++ rest := by
      simp [encodeLabels]
    unfold parseDomainLoop
    rw [hslice, parseDomainBody_label pre l _ spare d (by unfold maxDomainLength; omega) hl.1
      (by unfold maxLabelLength; omega)]
    simp only
    have hpre : (pre ++ (l.length :: l)).length = pre.length + 1 + l.length := by
      simp
      omega
    rw [← hslice, hnext, ← hpre]
    rw [ih (pre ++ (l.length :: l)) (d ++ l ++ str ".") n
      (fun x hx => hlab x (List.mem_cons_of_mem _ hx)) (by rw [hpre]; omega)
      (by simp at hfuel; omega)]
    simp [dotted]

/-- C2: round trip of the domain extractor. For every list of labels of 1 to
62 bytes whose wire encoding is at most 255 bytes long, `parseDomain` on the
encoding, followed by nothing or by a zero byte and any further bytes, returns
without error the labels in order, each followed by `.`; the encoding of
`www`, `example`, `com` yields `www.example.com.`. -/
theorem parseDomain_roundtrip (ls : List GoString) (rest spare : List Nat)
    (hlab : ∀ l ∈ ls, 1 ≤ l.length ∧ l.length ≤ 62)
    (henc : (encodeLabels ls).length ≤ 255)
    (hrest : rest = [] ∨ ∃ more, rest = 0 :: more) :
    parseDomain ⟨encodeLabels ls ++ rest, spare⟩ = some (.ok (dotted ls)) ∧
    dotted [str "www", str "example", str "com"] = str "www.example.com." := by
  refine ⟨?_, by decide⟩
  have hlen := encodeLabels_length_ge ls fun l hl => (hlab l hl).1
  have h := parseDomainLoop_roundtrip rest spare hrest ls [] [] (maxDomainLength + 1) hlab
    (by simpa using henc) (by unfold maxDomainLength; omega)
  simpa [parseDomain] using h

/-- C2 at the labels `www`, `example`, `com`, followed by the terminator and
the query type and class. -/
theorem parseDomain_roundtrip_witness :
    ((∀ l ∈ [str "www", str "example", str "com"], 1 ≤ l.length ∧ l.length ≤ 62) ∧
      (encodeLabels [str "www", str "example", str "com"]).length ≤ 255 ∧
      (([0, 0, 1, 0, 1] : List Nat) = [] ∨ ∃ more, ([0, 0, 1, 0, 1] : List Nat) = 0 :: more)) ∧
    (parseDomain ⟨encodeLabels [str "www", str "example", str "com"] ++ [0, 0, 1, 0, 1], []⟩
        = some (.ok (dotted [str "www", str "example", str "com"])) ∧
      dotted [str "www", str "example", str "com"] = str "www.example.com.") :=
  ⟨⟨by decide, by decide, Or.inr ⟨_, rfl⟩⟩,
    parseDomain_roundtrip _ _ _ (by decide) (by decide) (Or.inr ⟨_, rfl⟩)⟩

/-! ## Domain extractor: the root name and the default route -/

/-- C3: on every buffer whose first byte is zero `parseDomain` returns the
empty string without error, which is not the root domain `.`. -/
theorem parseDomain_empty_name (rest spare : List Nat) :
    parseDomain ⟨0 :: rest, spare⟩ = some (.ok []) ∧ ([] : GoString) ≠ str "." := by
  refine ⟨?_, by decide⟩
  simp [parseDomain, parseDomainLoop, parseDomainBody, Slice.len, Slice.index, maxDomainLength]

/-- The result of a domain that is empty or ends with `.` stays so. -/
theorem parseDomainLoop_dot (labels : Slice) :
    ∀ (fuel i : Nat) (d r : GoString), (d = [] ∨ str "." <:+ d) →
      parseDomainLoop fuel labels i d = some (.ok r) → (r = [] ∨ str "." <:+ r) := by
  intro fuel
  induction fuel with
  | zero =>
    intro i d r _ h
    simp [parseDomainLoop] at h
  | succ n ih =>
    intro i d r hd h
    unfold parseDomainLoop at h
    cases hb : parseDomainBody labels i d with
    | done r0 =>
      rw [hb] at h
      have hr0 : r0 = .ok r := by simpa using h
      subst hr0
      unfold parseDomainBody at hb
      split at hb
      · split at hb
        · cases hb
        · split at hb
          · cases hb
            exact hd
          · split at hb
            · cases hb
            · split at hb
              · cases hb
              · split at hb <;> cases hb
      · cases hb
        exact hd
    | next j e =>
      rw [hb] at h
      obtain ⟨size, -, -, -, -, -, -, -, -, he⟩ := parseDomainBody_next hb
      exact ih j e r (Or.inr (he ▸ List.suffix_append _ _)) h

/-- The default route serves every domain `parseDomain` returns but the empty
one: a table with an entry for `.` finds an upstream for every non-empty
extracted domain. -/
theorem Find_default_route (us : Upstreams) (root : Upstream) (labels : Slice) (d : GoString)
    (hroot : root ∈ us) (hdot : root.Domain = str ".")
    (hparse : parseDomain labels = some (.ok d)) (hd : d ≠ []) :
    (Find us d).isSome = true := by
  rcases parseDomainLoop_dot labels _ 0 [] d (Or.inl rfl) hparse with h | h
  · exact absurd h hd
  · cases hf : Find us d with
    | some u => rfl
    | none => exact absurd (hdot ▸ h) ((Find_eq_none us d).1 hf root hroot)

/-- C4: with the default route `.` configured, a query for the root name is
received, `parseDomain` succeeds on its question with the empty domain, `Find`
finds no upstream for it, and `forward` drops the query. -/
theorem default_route_misses_root_query :
    entry "." ⟨str "192.0.2.200", 53⟩ ∈ defaultOnly.Upstreams ∧
    parseDomain ⟨[0, 0, 2, 0, 1], []⟩ = some (.ok []) ∧
    Find defaultOnly.Upstreams [] = none ∧
    (receive defaultOnly ⟨str "198.51.100.7", 4242⟩ (queryHeader ++ [0, 0, 2, 0, 1])).bind forward
      = some (.dropped (.upstreamNotFound [])) := by
  refine ⟨by decide, by decide, by decide, ?_⟩
  decide

/-! ## Domain extractor: rejected and overlong names -/

/-- C5: the length byte 3 at offset 0 of the three-byte buffer `3 a b` claims
one byte more than the buffer holds (`0 + 1 + 3 > 3`), and `parseDomain`
returns no error: with spare capacity behind the buffer it returns a domain
whose label holds the byte beyond the end of the buffer, without spare
capacity it panics; the same question received from the network yields the
domain with the byte beyond the datagram. -/
theorem parseDomain_label_past_buffer_end :
    Reaches ⟨[3, 97, 98], [0]⟩ 0 [] ∧
    (⟨[3, 97, 98], [0]⟩ : Slice).index 0 = some 3 ∧
    (⟨[3, 97, 98], [0]⟩ : Slice).len < 0 + 1 + 3 ∧
    parseDomain ⟨[3, 97, 98], [0]⟩ = some (.ok [97, 98, 0, 46]) ∧
    parseDomain ⟨[3, 97, 98], []⟩ = some .panic ∧
    ((receive defaultOnly ⟨str "198.51.100.7", 4242⟩ (queryHeader ++ [3, 97, 98])).bind fun job =>
      (job.Query.sliceFrom dnsHeaderSize).bind parseDomain) = some (.ok [97, 98, 0, 46]) := by
  refine ⟨.start, by decide, by decide, by decide, by decide, by decide⟩

/-- C6: when the loop of `parseDomain` arrives at a label length byte of 0xC0
or more (its two top bits set), `parseDomain` returns an error, not a domain
and not a panic. -/
theorem parseDomain_rejects_compression (labels : Slice) (i size : Nat) (d : GoString)
    (hreach : Reaches labels i d) (hi : i < maxDomainLength)
    (hsize : labels.index i = some size) (htop : 0xC0 ≤ size) :
    ∃ e, parseDomain labels = some (.error e) := by
  rw [← parseDomain_of_reaches hreach]
  have hlen : i < labels.len := by
    unfold Slice.index at hsize
    unfold Slice.len
    by_contra hge
    rw [List.getElem?_eq_none (by omega)] at hsize
    cases hsize
  unfold parseDomainLoop parseDomainBody
  rw [if_pos ⟨hi, hlen⟩, hsize]
  simp only
  rw [if_neg (by omega)]
  by_cases hend : i + size > labels.len
  · rw [if_pos hend]
    exact ⟨_, rfl⟩
  · rw [if_neg hend, if_pos (by unfold maxLabelLength; omega)]
    exact ⟨_, rfl⟩

/-- C6 at the name `a` followed by a compression pointer to offset 12. -/
theorem parseDomain_rejects_compression_witness :
    (Reaches ⟨[1, 97, 0xC0, 0x0C, 0, 1, 0, 1], []⟩ 2 [97, 46] ∧ 2 < maxDomainLength ∧
      (⟨[1, 97, 0xC0, 0x0C, 0, 1, 0, 1], []⟩ : Slice).index 2 = some 0xC0 ∧ 0xC0 ≤ 0xC0) ∧
    ∃ e, parseDomain ⟨[1, 97, 0xC0, 0x0C, 0, 1, 0, 1], []⟩ = some (.error e) :=
  ⟨⟨.step .start (by decide), by decide, by decide, by decide⟩,
    parseDomain_rejects_compression _ 2 0xC0 [97, 46] (.step .start (by decide)) (by decide)
      (by decide) (by decide)⟩

/-- Every domain `parseDomain` returns is at most 254 + 63 = 317 bytes long. -/
theorem parseDomainLoop_length (labels : Slice) :
    ∀ (fuel i : Nat) (d r : GoString), d.length = i → i ≤ 317 →
      parseDomainLoop fuel labels i d = some (.ok r) → r.length ≤ 317 := by
  intro fuel
  induction fuel with
  | zero =>
    intro i d r _ _ h
    simp [parseDomainLoop] at h
  | succ n ih =>
    intro i d r hd hi h
    unfold parseDomainLoop at h
    cases hb : parseDomainBody labels i d with
    | done r0 =>
      rw [hb] at h
      have hr0 : r0 = .ok r := by simpa using h
      subst hr0
      unfold parseDomainBody at hb
      split at hb
      · split at hb
        · cases hb
        · split at hb
          · cases hb
            omega
          · split at hb
            · cases hb
            · split at hb
              · cases hb
              · split at hb <;> cases hb
      · cases hb
        omega
    | next j e =>
      rw [hb] at h
      obtain ⟨size, -, h1, -, -, -, h2, hcap, hj, he⟩ := parseDomainBody_next hb
      unfold maxDomainLength at h1
      unfold maxLabelLength at h2
      have hlen : e.length = j := by
        rw [he, hj]
        simp only [List.length_append, List.length_take, List.length_drop, Slice.backing, str]
        unfold Slice.cap at hcap
        simp
        omega
      exact ih j e r hlen (by omega) h

/-- C7: `parseDomain` succeeds on a 318-byte buffer holding six labels and the
terminator, and the domain it returns is 317 bytes long, over the bound of
`maxDomainLength` = 255. -/
theorem parseDomain_exceeds_maxDomainLength :
    (encodeLabels overlongName ++ [0]).length = 318 ∧
    parseDomain ⟨encodeLabels overlongName ++ [0], []⟩ = some (.ok (dotted overlongName)) ∧
    (dotted overlongName).length = 317 ∧
    maxDomainLength < (dotted overlongName).length := by
  refine ⟨by decide, by decide, by decide, by decide⟩

/-! ## Routing table: insertion -/

/-- A table in which no later entry is `Less` than an earlier one is sorted by
non-increasing `Domain` length. -/
theorem SortedTable_of_Less (us : Upstreams)
    (h : ∀ i j : Nat, i < j → j < us.length → Less us j i = false) : SortedTable us := by
  rw [SortedTable, List.pairwise_iff_getElem]
  intro i j hi hj hij
  have hL := h i j hij hj
  unfold Less at hL
  rw [List.getElem?_eq_getElem hj, List.getElem?_eq_getElem hi] at hL
  simpa using hL

theorem Less_of_SortedTable (us : Upstreams) (h : SortedTable us) :
    ∀ i j : Nat, i < j → j < us.length → Less us j i = false := by
  intro i j hij hj
  rw [SortedTable, List.pairwise_iff_getElem] at h
  have hi : i < us.length := by omega
  have := h i j hi hj hij
  unfold Less
  rw [List.getElem?_eq_getElem hj, List.getElem?_eq_getElem hi]
  simpa using this

/-- A successful `Set` returns the sorted table with one entry appended. -/
theorem Set_ok {env : Env} {us t : Upstreams} {value : GoString}
    (h : Set env us value = .ok t) : ∃ u, t = env.sortTable (us ++ [u]) := by
  unfold Set at h
  split at h
  · dsimp only at h
    split at h
    · cases h
    · split at h
      · split at h
        · cases h
        · cases h
          exact ⟨_, rfl⟩
      · split at h
        · split at h
          · cases h
          · cases h
            exact ⟨_, rfl⟩
        · cases h
  · cases h

theorem SetAll_sorted (env : Env) (hsort : SortContract env.sortTable) :
    ∀ (vs : List GoString) (us t : Upstreams), SortedTable us →
      SetAll env us vs = .ok t → SortedTable t := by
  intro vs
  induction vs with
  | nil =>
    intro us t hus h
    unfold SetAll at h
    cases h
    exact hus
  | cons v vs ih =>
    intro us t _ h
    unfold SetAll at h
    cases hv : Set env us v with
    | error e =>
      rw [hv] at h
      cases h
    | ok next =>
      rw [hv] at h
      obtain ⟨u, rfl⟩ := Set_ok hv
      exact ih _ t (SortedTable_of_Less _ (hsort _).2) h

/-- The insertion sort of the example environment meets the contract of
`sort.Sort`. -/
theorem insertionEnv_sortContract : SortContract insertionEnv.sortTable := by
  intro us
  refine ⟨List.perm_insertionSort longerFirst us, ?_⟩
  exact Less_of_SortedTable _ (List.sorted_insertionSort longerFirst us)

/-- C8: with a `sort.Sort` that meets its contract, the table after a
successful `Set` is a permutation of the previous entries plus one new entry
and is sorted by non-increasing `Domain` length; hence the table is sorted
after any sequence of successful `Set` calls that starts from the empty
table. -/
theorem Set_keeps_table_sorted (env : Env) (hsort : SortContract env.sortTable)
    (us t : Upstreams) (value : GoString) (h : Set env us value = .ok t) :
    (∃ u, t.Perm (us ++ [u])) ∧ SortedTable t ∧
    ∀ (vs : List GoString) (final : Upstreams),
      SetAll env [] vs = .ok final → SortedTable final := by
  obtain ⟨u, rfl⟩ := Set_ok h
  refine ⟨⟨u, (hsort _).1⟩, SortedTable_of_Less _ (hsort _).2, ?_⟩
  intro vs final hfinal
  exact SetAll_sorted env hsort vs [] final List.Pairwise.nil hfinal

/-- C8 at the insertion of `example.com` into a table that holds the default
route. -/
theorem Set_keeps_table_sorted_witness :
    (SortContract insertionEnv.sortTable ∧
      Set insertionEnv [entry "." ⟨str "192.0.2.200:53", 0⟩] (str "example.com=192.0.2.1")
        = .ok [entry "example.com." ⟨str "192.0.2.1:53", 0⟩, entry "." ⟨str "192.0.2.200:53", 0⟩]) ∧
    ((∃ u, [entry "example.com." ⟨str "192.0.2.1:53", 0⟩,
        entry "." ⟨str "192.0.2.200:53", 0⟩].Perm ([entry "." ⟨str "192.0.2.200:53", 0⟩] ++ [u])) ∧
      SortedTable [entry "example.com." ⟨str "192.0.2.1:53", 0⟩,
        entry "." ⟨str "192.0.2.200:53", 0⟩] ∧
      ∀ (vs : List GoString) (final : Upstreams),
        SetAll insertionEnv [] vs = .ok final → SortedTable final) :=
  ⟨⟨insertionEnv_sortContract, by decide⟩,
    Set_keeps_table_sorted insertionEnv insertionEnv_sortContract _ _
      (str "example.com=192.0.2.1") (by decide)⟩

/-! ## Dispatcher -/

theorem and_two_pow_ne_zero (x n : Nat) : x &&& 2 ^ n ≠ 0 ↔ x.testBit n = true := by
  constructor
  · intro h
    obtain ⟨i, hi⟩ := Nat.ne_zero_implies_bit_true h
    rw [Nat.testBit_and, Nat.testBit_two_pow, Bool.and_eq_true, decide_eq_true_eq] at hi
    exact hi.2 ▸ hi.1
  · intro h h0
    have := Nat.testBit_and x (2 ^ n) n
    rw [h0, Nat.zero_testBit, h, Nat.testBit_two_pow_self] at this
    cases this

/-- The response flag of the header is the top bit of byte 2. -/
theorem responseFlag_iff (b0 b1 : Nat) (h0 : b0 < 256) (h1 : b1 < 256) :
    ((b1 ||| (b0 <<< 8)) % 2 ^ 16) &&& 0x8000 ≠ 0 ↔ 128 ≤ b0 := by
  have h15 : (0x8000 : Nat) = 2 ^ 15 := by norm_num
  rw [h15, and_two_pow_ne_zero, Nat.testBit_mod_two_pow, Nat.testBit_or, Nat.testBit_shiftLeft,
    Nat.testBit_lt_two_pow (show b1 < 2 ^ 15 by omega), Nat.testBit_to_div_mod]
  simp
  omega

/-- The flags `forward` reads from a packet with bytes 2 and 3. -/
theorem forward_flags (q : Slice) (b0 b1 : Nat)
    (h0 : q.index 2 = some b0) (h1 : q.index 3 = some b1) :
    (q.slice 2 4).bind Uint16 = some ((b1 ||| (b0 <<< 8)) % 2 ^ 16) := by
  obtain ⟨elems, spare⟩ := q
  unfold Slice.index at h0 h1
  simp only at h0 h1
  have hlen : 3 < elems.length := by
    by_contra hge
    rw [List.getElem?_eq_none (by omega)] at h1
    cases h1
  have e0 : ((elems ++ spare).drop 2)[0]? = some b0 := by
    rw [List.getElem?_drop, List.getElem?_append_left (by omega)]
    exact h0
  have e1 : ((elems ++ spare).drop 2)[1]? = some b1 := by
    rw [List.getElem?_drop, List.getElem?_append_left (by omega)]
    exact h1
  unfold Slice.slice
  rw [if_pos ⟨by omega, by simp only [Slice.cap]; omega⟩]
  simp only [Option.some_bind, Uint16, Slice.index, Slice.backing, List.getElem?_take, e0, e1]
  simp

/-- With a backing array of 317 bytes or more, or with room for one more byte
behind the buffer, no slice expression of `parseDomain` is out of range. -/
theorem parseDomainLoop_no_panic (labels : Slice) (hcap : 317 ≤ labels.cap ∨ labels.len < labels.cap) :
    ∀ (fuel i : Nat) (d : GoString), parseDomainLoop fuel labels i d ≠ some .panic := by
  intro fuel
  induction fuel with
  | zero =>
    intro i d h
    simp [parseDomainLoop] at h
  | succ n ih =>
    intro i d h
    unfold parseDomainLoop at h
    cases hb : parseDomainBody labels i d with
    | next j e =>
      rw [hb] at h
      exact ih j e h
    | done r0 =>
      rw [hb] at h
      have hr0 : r0 = .panic := by simpa using h
      subst hr0
      unfold parseDomainBody at hb
      split at hb
      next hc =>
        split at hb
        next hidx =>
          unfold Slice.index at hidx
          unfold Slice.len at hc
          rw [List.getElem?_eq_getElem hc.2] at hidx
          cases hidx
        · split at hb
          · cases hb
          · split at hb
            · cases hb
            · split at hb
              · cases hb
              · split at hb
                next hs =>
                  unfold Slice.slice at hs
                  unfold maxDomainLength at hc
                  unfold maxLabelLength at *
                  rw [if_pos ⟨by omega, by omega⟩] at hs
                  cases hs
                · cases hb
      · cases hb

/-- The job the receive loop builds: the datagram cut to 1536 bytes, over a
backing array of 1536 bytes. -/
theorem receive_eq (config : Config) (client : Addr) (datagram : List Nat) :
    receive config client datagram
      = some ⟨config, client,
          ⟨datagram.take 1536, List.replicate (1536 - min datagram.length 1536) 0⟩⟩ := by
  unfold receive ReadFromUDP makePacketBuffer Slice.slice
  simp only [Slice.len, Slice.cap, Slice.backing, List.length_replicate, List.length_append,
    List.length_take, List.length_drop, List.length_nil, List.append_nil, List.drop_zero,
    Nat.sub_zero]
  rw [if_pos ⟨Nat.zero_le _, by omega⟩]
  simp only [Option.map_some', Option.some.injEq, Job.mk.injEq, Slice.mk.injEq, true_and]
  have hm : min datagram.length 1536 ≤ (List.take (min datagram.length 1536) datagram).length := by
    simp
  constructor
  · rw [List.take_append_of_le_length hm, List.take_take, Nat.min_self, List.take_eq_take]
    simp
    omega
  · have hl : (List.take (min datagram.length 1536) datagram).length = min datagram.length 1536 := by
      simp
    rw [List.drop_left' hl, List.drop_replicate]

theorem sliceFrom_eq (q : Slice) (lo : Nat) (h : lo ≤ q.len) :
    q.sliceFrom lo = some ⟨q.elems.drop lo, q.spare⟩ := by
  obtain ⟨elems, spare⟩ := q
  unfold Slice.len at h
  simp only at h
  unfold Slice.sliceFrom Slice.slice
  simp only [Slice.len, Slice.cap, Slice.backing]
  rw [if_pos ⟨h, by omega⟩]
  simp only [Option.some.injEq, Slice.mk.injEq]
  constructor
  · rw [List.drop_append_of_le_length h, List.take_append_of_le_length (by simp),
      List.take_of_length_le (by simp)]
  · rw [List.drop_left' rfl]

theorem index_some_of_lt (q : Slice) (i : Nat) (h : i < q.len) :
    ∃ b, q.index i = some b ∧ b ∈ q.elems := by
  unfold Slice.len at h
  exact ⟨q.elems[i], by unfold Slice.index; exact List.getElem?_eq_getElem h,
    List.getElem_mem h⟩

/-- C9: a packet shorter than 12 bytes, or of at least 12 bytes with the top
bit of byte 2 set, is dropped by `forward` before the question section is
read: the result is the drop of the bogus bytes or of the response packet,
never a started resolution and never a panic. -/
theorem forward_drops_short_or_response (job : Job)
    (hbytes : ∀ b ∈ job.Query.elems, b < 256)
    (h : job.Query.len < 12 ∨
      (12 ≤ job.Query.len ∧ ∃ b, job.Query.index 2 = some b ∧ 128 ≤ b)) :
    ∃ r, forward job = some (.dropped r) ∧
      (r = .bogusBytes job.Query.len ∨ r = .responsePacket) := by
  rcases h with h | ⟨hlen, b0, h0, htop⟩
  · refine ⟨_, ?_, Or.inl rfl⟩
    unfold forward
    rw [if_pos (by unfold dnsHeaderSize; exact h)]
  · refine ⟨_, ?_, Or.inr rfl⟩
    obtain ⟨b1, h1, hm1⟩ := index_some_of_lt job.Query 3 (by omega)
    have hm0 : b0 ∈ job.Query.elems := by
      unfold Slice.index at h0
      exact List.getElem?_mem h0
    unfold forward
    rw [if_neg (by unfold dnsHeaderSize; omega), forward_flags job.Query b0 b1 h0 h1]
    simp only
    rw [if_pos ((responseFlag_iff b0 b1 (hbytes b0 hm0) (hbytes b1 hm1)).2 htop)]

/-- C9 at a packet of five bytes. -/
theorem forward_drops_short_or_response_witness :
    ((∀ b ∈ ([0x12, 0x34, 0x81, 0x80, 0] : List Nat), b < 256) ∧
      ((⟨[0x12, 0x34, 0x81, 0x80, 0], []⟩ : Slice).len < 12 ∨
        (12 ≤ (⟨[0x12, 0x34, 0x81, 0x80, 0], []⟩ : Slice).len ∧
          ∃ b, (⟨[0x12, 0x34, 0x81, 0x80, 0], []⟩ : Slice).index 2 = some b ∧ 128 ≤ b))) ∧
    ∃ r, forward ⟨defaultOnly, ⟨str "198.51.100.7", 4242⟩, ⟨[0x12, 0x34, 0x81, 0x80, 0], []⟩⟩
        = some (.dropped r) ∧
      (r = .bogusBytes (⟨[0x12, 0x34, 0x81, 0x80, 0], []⟩ : Slice).len ∨ r = .responsePacket) :=
  ⟨⟨by decide, Or.inl (by decide)⟩,
    forward_drops_short_or_response
      ⟨defaultOnly, ⟨str "198.51.100.7", 4242⟩, ⟨[0x12, 0x34, 0x81, 0x80, 0], []⟩⟩
      (by decide) (Or.inl (by decide))⟩

/-- What `forward` does with a query of at least 12 bytes whose response flag
is clear. -/
theorem forward_query (job : Job) (b0 b1 : Nat) (hlen : 12 ≤ job.Query.len)
    (h0 : job.Query.index 2 = some b0) (h1 : job.Query.index 3 = some b1)
    (hb0 : b0 < 128) (hb1 : b1 < 256) :
    forward job =
      match parseDomain ⟨job.Query.elems.drop 12, job.Query.spare⟩ with
      | none => none
      | some .panic => some .panic
      | some (.error e) => some (.dropped (.parsingDomain e))
      | some (.ok domain) =>
        match Find job.Config.Upstreams domain with
        | none => some (.dropped (.upstreamNotFound domain))
        | some upstream => some (.started job upstream) := by
  have hclear : ¬ ((b1 ||| (b0 <<< 8)) % 2 ^ 16) &&& 0x8000 ≠ 0 := by
    rw [responseFlag_iff b0 b1 (by omega) hb1]
    omega
  unfold forward
  rw [if_neg (by unfold dnsHeaderSize; omega), forward_flags job.Query b0 b1 h0 h1]
  simp only
  rw [if_neg hclear, sliceFrom_eq job.Query dnsHeaderSize hlen]
  rfl

/-- C10: for every datagram of at least 12 bytes with the response flag clear,
the receive loop builds a job whose query is the datagram (cut to the 1536
bytes of the packet buffer), and `forward` starts a resolution exactly when
`parseDomain` succeeds on the bytes after the header and `Find` finds an
upstream for the domain: the resolution is started with that upstream and the
unchanged job, and in every other case the packet is dropped. -/
theorem forward_dispatches (config : Config) (client : Addr) (datagram : List Nat)
    (hbytes : ∀ b ∈ datagram, b < 256) (hlen : 12 ≤ datagram.length)
    (hflag : ∀ b, datagram[2]? = some b → b < 128) :
    ∃ job labels, receive config client datagram = some job ∧
      job.Config = config ∧ job.Client = client ∧
      job.Query.elems = datagram.take 1536 ∧
      job.Query.sliceFrom dnsHeaderSize = some labels ∧
      labels.elems = (datagram.take 1536).drop 12 ∧
      (∀ j u, forward job = some (.started j u) ↔
        j = job ∧ ∃ d, parseDomain labels = some (.ok d) ∧ Find config.Upstreams d = some u) ∧
      ((¬ ∃ d u, parseDomain labels = some (.ok d) ∧ Find config.Upstreams d = some u) →
        ∃ r, forward job = some (.dropped r)) := by
  have hq : (12 : Nat) ≤ (datagram.take 1536).length := by
    rw [List.length_take]
    omega
  refine ⟨_, ⟨(datagram.take 1536).drop 12, _⟩, receive_eq config client datagram, rfl, rfl, rfl,
    sliceFrom_eq _ _ hq, rfl, ?_⟩
  have hidx : ∀ i, i < 12 → (datagram.take 1536)[i]? = datagram[i]? := by
    intro i hi
    rw [List.getElem?_take, if_pos (by omega)]
  obtain ⟨b0, h0⟩ : ∃ b0, datagram[2]? = some b0 :=
    ⟨datagram[2], List.getElem?_eq_getElem (by omega)⟩
  obtain ⟨b1, h1⟩ : ∃ b1, datagram[3]? = some b1 :=
    ⟨datagram[3], List.getElem?_eq_getElem (by omega)⟩
  have hfwd := forward_query
    ⟨config, client, ⟨datagram.take 1536, List.replicate (1536 - min datagram.length 1536) 0⟩⟩
    b0 b1 hq (by unfold Slice.index; rw [hidx 2 (by omega)]; exact h0)
    (by unfold Slice.index; rw [hidx 3 (by omega)]; exact h1)
    (hflag b0 h0) (hbytes b1 (List.getElem?_mem h1))
  simp only at hfwd
  have hcap : 317 ≤ (⟨(datagram.take 1536).drop 12,
      List.replicate (1536 - min datagram.length 1536) 0⟩ : Slice).cap := by
    simp only [Slice.cap, List.length_drop, List.length_take, List.length_replicate]
    omega
  obtain ⟨r, hr⟩ := parseDomain_total ⟨(datagram.take 1536).drop 12,
      List.replicate (1536 - min datagram.length 1536) 0⟩
  have hnp : r ≠ .panic := by
    rintro rfl
    exact parseDomainLoop_no_panic _ (Or.inl hcap) _ 0 [] hr
  rw [hr] at hfwd
  rw [hr]
  cases r with
  | panic => exact absurd rfl hnp
  | error e =>
    simp only at hfwd
    rw [hfwd]
    constructor
    · intro j u
      simp
    · intro _
      exact ⟨_, rfl⟩
  | ok d =>
    simp only at hfwd
    cases hF : Find config.Upstreams d with
    | none =>
      rw [hF] at hfwd
      simp only at hfwd
      rw [hfwd]
      constructor
      · intro j u
        simp [hF]
      · intro _
        exact ⟨_, rfl⟩
    | some u0 =>
      rw [hF] at hfwd
      simp only at hfwd
      rw [hfwd]
      constructor
      · intro j u
        simp only [Option.some.injEq, ForwardResult.started.injEq, ParseResult.ok.injEq,
          exists_eq_left', hF]
        constructor
        · rintro ⟨rfl, rfl⟩
          exact ⟨rfl, rfl⟩
        · rintro ⟨rfl, rfl⟩
          exact ⟨rfl, rfl⟩
      · intro hno
        exact absurd ⟨d, u0, rfl, hF⟩ hno

/-- C10 at a query for the name `a` with only the default route configured. -/
theorem forward_dispatches_witness :
    ((∀ b ∈ queryHeader ++ [1, 97, 0, 0, 1, 0, 1], b < 256) ∧
      12 ≤ (queryHeader ++ [1, 97, 0, 0, 1, 0, 1]).length ∧
      (∀ b, (queryHeader ++ [1, 97, 0, 0, 1, 0, 1])[2]? = some b → b < 128)) ∧
    ∃ job labels,
      receive defaultOnly ⟨str "198.51.100.7", 4242⟩ (queryHeader ++ [1, 97, 0, 0, 1, 0, 1])
        = some job ∧
      job.Config = defaultOnly ∧ job.Client = ⟨str "198.51.100.7", 4242⟩ ∧
      job.Query.elems = (queryHeader ++ [1, 97, 0, 0, 1, 0, 1]).take 1536 ∧
      job.Query.sliceFrom dnsHeaderSize = some labels ∧
      labels.elems = ((queryHeader ++ [1, 97, 0, 0, 1, 0, 1]).take 1536).drop 12 ∧
      (∀ j u, forward job = some (.started j u) ↔
        j = job ∧ ∃ d, parseDomain labels = some (.ok d) ∧
          Find defaultOnly.Upstreams d = some u) ∧
      ((¬ ∃ d u, parseDomain labels = some (.ok d) ∧ Find defaultOnly.Upstreams d = some u) →
        ∃ r, forward job = some (.dropped r)) :=
  ⟨⟨by decide, by decide, by decide⟩,
    forward_dispatches defaultOnly ⟨str "198.51.100.7", 4242⟩
      (queryHeader ++ [1, 97, 0, 0, 1, 0, 1]) (by decide) (by decide) (by decide)⟩

/-- Every domain `parseDomain` returns is at most 317 bytes long. -/
theorem parseDomain_length_le (labels : Slice) (d : GoString)
    (h : parseDomain labels = some (.ok d)) : d.length ≤ 317 :=
  parseDomainLoop_length labels _ 0 [] d rfl (by omega) h


/-! ## Forwarder: stream framing -/

/-- The buffer `resolveTCP` builds is the length of the query, reduced modulo
2^16, as two big-endian bytes, followed by the query. -/
theorem queryBuffer_eq (query : List Nat) :
    queryBuffer query
      = [query.length % 2 ^ 16 / 256, query.length % 2 ^ 16 % 256] ++ query := by
  have hrep : List.replicate (2 + query.length) 0 = 0 :: 0 :: List.replicate query.length 0 := by
    rw [Nat.add_comm]
    rfl
  have hhi : (query.length % 2 ^ 16) >>> 8 % 256 = query.length % 2 ^ 16 / 256 := by
    rw [Nat.shiftRight_eq_div_pow]
    omega
  unfold queryBuffer PutUint16 copyBytes
  simp only [hrep, List.set_cons_zero, List.set_cons_succ, List.take_succ_cons, List.take_zero,
    List.drop_succ_cons, List.drop_zero, List.length_replicate, hhi]
  rw [List.take_of_length_le (le_refl _), List.drop_of_length_le (by simp)]
  simp

theorem take_append_drop_min (n : Nat) (l : List Nat) :
    l.take n ++ l.drop (min n l.length) = l := by
  by_cases h : n ≤ l.length
  · rw [Nat.min_eq_left h, List.take_append_drop]
  · rw [Nat.min_eq_right (by omega), List.take_of_length_le (by omega),
      List.drop_of_length_le (le_refl _), List.append_nil]

/-- A call of `Read` changes neither what was delivered nor the scripts of the
writes. -/
theorem Read_delivered (r : TCPConn) (room : Nat) :
    (r.Read room).2.2.delivered = r.delivered := by
  unfold TCPConn.Read
  cases r.reads 0 with
  | fail => rfl
  | ok n =>
    simp only
    split <;> rfl

/-- A writer that accepts at least one byte on every call lets `writeAll` end
with everything delivered. -/
theorem writeAllLoop_delivers (buffer : List Nat) :
    ∀ (fuel : Nat) (w : TCPConn) (total : Nat),
      (∀ k, ∃ n, 1 ≤ n ∧ w.writes k = .ok n) → total ≤ buffer.length →
      buffer.length - total < fuel →
      ∃ c, writeAllLoop fuel buffer w total = some (false, c) ∧
        c.delivered = w.delivered ++ buffer.drop total ∧
        c.pending = w.pending ∧ c.reads = w.reads := by
  intro fuel
  induction fuel with
  | zero =>
    intro w total _ _ hf
    omega
  | succ m ih =>
    intro w total hw ht hf
    unfold writeAllLoop
    by_cases hlt : total < buffer.length
    · rw [if_pos hlt]
      obtain ⟨n, hn, hk⟩ := hw 0
      unfold TCPConn.Write
      rw [hk]
      simp only
      have hlen : (buffer.drop total).length = buffer.length - total := List.length_drop _ _
      obtain ⟨c, hc, hd, hp, hr⟩ := ih
        ⟨w.delivered ++ (buffer.drop total).take n, w.pending, w.writes.rest, w.reads⟩
        (total + min n (buffer.drop total).length)
        (fun k => hw (k + 1)) (by rw [hlen]; omega) (by rw [hlen]; omega)
      refine ⟨c, hc, ?_, hp, hr⟩
      rw [hd]
      simp only [List.append_assoc, List.append_cancel_left_eq]
      rw [← List.drop_drop]
      exact take_append_drop_min n _
    · rw [if_neg hlt]
      refine ⟨w, rfl, ?_, rfl, rfl⟩
      rw [List.drop_of_length_le (by omega), List.append_nil]

/-- Reading does not change what was delivered to the upstream. -/
theorem readAllLoop_delivered :
    ∀ (fuel : Nat) (r : TCPConn) (size : Nat) (buffer : List Nat) (total : Nat)
      (e : Bool) (b : List Nat) (c : TCPConn),
      readAllLoop fuel r size buffer total = some (e, b, c) → c.delivered = r.delivered := by
  intro fuel
  induction fuel with
  | zero =>
    intro r size buffer total e b c h
    simp [readAllLoop] at h
  | succ m ih =>
    intro r size buffer total e b c h
    unfold readAllLoop at h
    split at h
    · have hR := Read_delivered r (size - total)
      rcases hread : r.Read (size - total) with ⟨data, flag, r1⟩
      rw [hread] at h hR
      simp only at hR
      cases flag with
      | true =>
        simp only [Option.some.injEq, Prod.mk.injEq] at h
        rw [← h.2.2, hR]
      | false =>
        simp only at h
        exact (ih _ _ _ _ _ _ _ h).trans hR
    · simp only [Option.some.injEq, Prod.mk.injEq] at h
      rw [← h.2.2]

/-- Whatever `resolveTCP` does after a write of the query that succeeds, the
bytes delivered to the upstream stay those of the write. -/
theorem resolveTCP_delivered (fuel : Nat) (net : Network) (sock : Socket) (job : Job)
    (server : Addr) (conn c1 : TCPConn) (o : TCPOutcome)
    (hdial : net.DialTCP server = some conn)
    (hwrite : writeAll fuel (queryBuffer job.Query.elems) conn = some (false, c1))
    (ho : resolveTCP fuel net sock job server = some o) :
    ∃ c, o.conn = some c ∧ c.delivered = c1.delivered := by
  unfold resolveTCP at ho
  rw [hdial] at ho
  simp only [hwrite] at ho
  split at ho
  · cases ho
  next c2 h2 =>
    cases ho
    exact ⟨c2, rfl, readAllLoop_delivered _ _ _ _ _ _ _ _ h2⟩
  next b2 c2 h2 =>
    have hd2 := readAllLoop_delivered _ _ _ _ _ _ _ _ h2
    split at ho
    · cases ho
      exact ⟨c2, rfl, hd2⟩
    · split at ho
      · cases ho
      next c3 h3 =>
        cases ho
        exact ⟨c3, rfl, (readAllLoop_delivered _ _ _ _ _ _ _ _ h3).trans hd2⟩
      next b3 c3 h3 =>
        have hd3 := (readAllLoop_delivered _ _ _ _ _ _ _ _ h3).trans hd2
        split at ho
        · cases ho
          exact ⟨c3, rfl, hd3⟩
        · split at ho <;> cases ho <;> exact ⟨c3, rfl, hd3⟩

/-- C11: for a query of at most 65535 bytes and an upstream writer that accepts
at least one byte on every call without error, `writeAll` in `resolveTCP`
ends without error, and the bytes delivered to the upstream over all partial
writes are the query length as two big-endian bytes followed by the query
bytes; nothing `resolveTCP` does afterwards adds to them. -/
theorem resolveTCP_frames_query (fuel : Nat) (net : Network) (sock : Socket) (job : Job)
    (server : Addr) (conn : TCPConn)
    (hdial : net.DialTCP server = some conn)
    (hlen : job.Query.len ≤ 65535)
    (hw : ∀ k, ∃ n, 1 ≤ n ∧ conn.writes k = .ok n)
    (hfuel : 2 + job.Query.len < fuel) :
    (∃ c, writeAll fuel (queryBuffer job.Query.elems) conn = some (false, c) ∧
      c.delivered
        = conn.delivered ++ [job.Query.len / 256, job.Query.len % 256] ++ job.Query.elems) ∧
    ∀ o, resolveTCP fuel net sock job server = some o →
      ∃ c, o.conn = some c ∧
        c.delivered
          = conn.delivered ++ [job.Query.len / 256, job.Query.len % 256] ++ job.Query.elems := by
  have hbuf : queryBuffer job.Query.elems
      = [job.Query.len / 256, job.Query.len % 256] ++ job.Query.elems := by
    rw [queryBuffer_eq]
    unfold Slice.len at hlen ⊢
    rw [Nat.mod_eq_of_lt (by omega)]
  have hblen : (queryBuffer job.Query.elems).length = 2 + job.Query.len := by
    rw [hbuf]
    simp [Slice.len]
    omega
  obtain ⟨c, hc, hd, -, -⟩ := writeAllLoop_delivers (queryBuffer job.Query.elems) fuel conn 0 hw
    (Nat.zero_le _) (by rw [hblen]; omega)
  rw [List.drop_zero, hbuf, ← List.append_assoc] at hd
  refine ⟨⟨c, hc, hd⟩, ?_⟩
  intro o ho
  obtain ⟨c2, hc2, hd2⟩ := resolveTCP_delivered fuel net sock job server conn c o hdial hc ho
  exact ⟨c2, hc2, hd2.trans hd⟩

/-- C11 at the example query, written three bytes at a time. -/
theorem resolveTCP_frames_query_witness :
    ((fun _ => some (chunkedConn [0, 3, 7, 8, 9, 10] 3 2) : Addr → Option TCPConn) ⟨[], 53⟩
        = some (chunkedConn [0, 3, 7, 8, 9, 10] 3 2) ∧
      exampleJob.Query.len ≤ 65535 ∧
      (∀ k, ∃ n, 1 ≤ n ∧ (chunkedConn [0, 3, 7, 8, 9, 10] 3 2).writes k = .ok n) ∧
      2 + exampleJob.Query.len < 100) ∧
    ((∃ c, writeAll 100 (queryBuffer exampleJob.Query.elems) (chunkedConn [0, 3, 7, 8, 9, 10] 3 2)
        = some (false, c) ∧
      c.delivered
        = (chunkedConn [0, 3, 7, 8, 9, 10] 3 2).delivered
          ++ [exampleJob.Query.len / 256, exampleJob.Query.len % 256]
          ++ exampleJob.Query.elems) ∧
    ∀ o, resolveTCP 100 ⟨fun _ => none, fun _ => some (chunkedConn [0, 3, 7, 8, 9, 10] 3 2)⟩
        freshSocket exampleJob ⟨[], 53⟩ = some o →
      ∃ c, o.conn = some c ∧
        c.delivered
          = (chunkedConn [0, 3, 7, 8, 9, 10] 3 2).delivered
            ++ [exampleJob.Query.len / 256, exampleJob.Query.len % 256]
            ++ exampleJob.Query.elems) :=
  ⟨⟨rfl, by decide, fun _ => ⟨3, by decide, rfl⟩, by decide⟩,
    resolveTCP_frames_query 100 ⟨fun _ => none, fun _ => some (chunkedConn [0, 3, 7, 8, 9, 10] 3 2)⟩
      freshSocket exampleJob ⟨[], 53⟩ (chunkedConn [0, 3, 7, 8, 9, 10] 3 2) rfl (by decide)
      (fun _ => ⟨3, by decide, rfl⟩) (by decide)⟩


/-- A reader that returns at least one byte on every call, over a stream that
holds the bytes asked for, lets `readAll` end with exactly these bytes read
into the front of the buffer. -/
theorem readAllLoop_reads :
    ∀ (fuel : Nat) (r : TCPConn) (size : Nat) (buffer : List Nat) (total : Nat),
      (∀ k, ∃ n, 1 ≤ n ∧ r.reads k = .ok n) → total ≤ size → size ≤ buffer.length →
      size - total ≤ r.pending.length → size - total < fuel →
      ∃ b c, readAllLoop fuel r size buffer total = some (false, b, c) ∧
        b.take size = buffer.take total ++ r.pending.take (size - total) ∧
        b.length = buffer.length ∧
        c.pending = r.pending.drop (size - total) ∧
        (∀ k, ∃ n, 1 ≤ n ∧ c.reads k = .ok n) := by
  intro fuel
  induction fuel with
  | zero =>
    intro r size buffer total _ _ _ _ hf
    omega
  | succ m ih =>
    intro r size buffer total hr ht hs hp hf
    unfold readAllLoop
    by_cases hlt : total < size
    · rw [if_pos hlt]
      obtain ⟨n, hn, hk⟩ := hr 0
      have hne : r.pending ≠ [] := by
        intro h0
        rw [h0] at hp
        simp at hp
        omega
      unfold TCPConn.Read
      rw [hk]
      simp only [if_neg hne]
      have hdata : (r.pending.take (min n (size - total))).length = min n (size - total) := by
        rw [List.length_take]
        omega
      rw [hdata]
      obtain ⟨b, c, hc, hb, hl, hpend, hreads⟩ := ih
        ⟨r.delivered, r.pending.drop (min n (size - total)), r.writes, r.reads.rest⟩ size
        (buffer.take total ++ r.pending.take (min n (size - total))
          ++ buffer.drop (total + min n (size - total)))
        (total + min n (size - total))
        (fun k => hr (k + 1)) (by omega)
        (by simp only [List.length_append, List.length_take, List.length_drop]; omega)
        (by simp only [List.length_drop]; omega) (by omega)
      refine ⟨b, c, hc, ?_, ?_, ?_, hreads⟩
      · rw [hb]
        have hpre : (buffer.take total ++ r.pending.take (min n (size - total))).length
            = total + min n (size - total) := by
          rw [List.length_append, hdata, List.length_take]
          omega
        rw [List.take_left' hpre, List.append_assoc]
        congr 1
        have hsplit : size - total
            = min n (size - total) + (size - (total + min n (size - total))) := by omega
        conv_rhs => rw [hsplit, List.take_add]
      · rw [hl]
        simp only [List.length_append, List.length_take, List.length_drop]
        omega
      · rw [hpend]
        simp only [List.drop_drop]
        congr 1
        omega
    · rw [if_neg hlt]
      have h0 : size - total = 0 := by omega
      refine ⟨buffer, r, rfl, ?_, rfl, ?_, hr⟩
      · have : size = total := by omega
        rw [h0, List.take_zero, List.append_nil, this]
      · rw [h0, List.drop_zero]

/-- The two bytes `resolveTCP` reads as the response size. -/
theorem responseSize_eq (buffer : List Nat) (hi lo : Nat) (hhi : hi < 256) (hlo : lo < 256)
    (h : buffer.take 2 = [hi, lo]) :
    (Slice.slice ⟨buffer, []⟩ 0 2).bind Uint16 = some (hi * 256 + lo) := by
  have hlen : 2 ≤ buffer.length := by
    have := congrArg List.length h
    rw [List.length_take] at this
    simp at this
    omega
  have hval : (lo ||| (hi <<< 8)) % 2 ^ 16 = hi * 256 + lo := by
    rw [Nat.shiftLeft_eq, Nat.lor_comm, Nat.mul_comm hi, ← Nat.mul_add_lt_is_or (by omega) hi,
      Nat.mod_eq_of_lt (by omega)]
  unfold Slice.slice
  rw [if_pos ⟨Nat.zero_le _, by simp only [Slice.cap]; simp; omega⟩]
  simp only [Option.some_bind, Uint16, Slice.index, Slice.backing, List.append_nil,
    List.drop_zero, Nat.sub_zero, h]
  simpa using hval

/-- C12: when the upstream stream is a 2-byte big-endian length M followed by
at least M further bytes, delivered in any sequence of non-empty reads, then
`resolveTCP`, once the query is written, returns having consumed exactly 2 + M
bytes of the stream and having called `WriteToUDP` once, with the M bytes
after the length prefix and the address of the client; on a listening socket
that takes the datagram whole it returns nil and that datagram is the one
datagram sent. -/
theorem resolveTCP_relays_response (fuel : Nat) (net : Network) (sock : Socket) (job : Job)
    (server : Addr) (conn : TCPConn) (hi lo : Nat) (rest : List Nat)
    (hdial : net.DialTCP server = some conn)
    (hw : ∀ k, ∃ n, 1 ≤ n ∧ conn.writes k = .ok n)
    (hr : ∀ k, ∃ n, 1 ≤ n ∧ conn.reads k = .ok n)
    (hhi : hi < 256) (hlo : lo < 256)
    (hstream : conn.pending = hi :: lo :: rest)
    (hM : hi * 256 + lo ≤ rest.length)
    (hfuel : 2 + job.Query.len < fuel ∧ hi * 256 + lo < fuel) :
    ∃ o c, resolveTCP fuel net sock job server = some o ∧ o.conn = some c ∧
      c.pending = conn.pending.drop (2 + (hi * 256 + lo)) ∧
      o.sock = (sock.WriteToUDP (rest.take (hi * 256 + lo)) job.Client).2.2 ∧
      ∀ n, hi * 256 + lo ≤ n → sock.results 0 = .ok n →
        o.err = none ∧
        o.sock.sent = sock.sent ++ [(rest.take (hi * 256 + lo), job.Client)] := by
  have hblen : (queryBuffer job.Query.elems).length = 2 + job.Query.len := by
    rw [queryBuffer_eq]
    simp [Slice.len]
    omega
  obtain ⟨c1, hc1, -, hp1, hr1⟩ := writeAllLoop_delivers (queryBuffer job.Query.elems) fuel conn 0
    hw (Nat.zero_le _) (by rw [hblen]; omega)
  obtain ⟨b2, c2, hc2, hb2, -, hp2, hr2⟩ := readAllLoop_reads fuel c1 2
    (queryBuffer job.Query.elems) 0 (by rw [hr1]; exact hr) (by omega) (by rw [hblen]; omega)
    (by rw [hp1, hstream]; simp) (by omega)
  rw [hp1, hstream] at hb2 hp2
  simp only [List.take_zero, List.nil_append, Nat.sub_zero, List.take_succ_cons,
    List.drop_succ_cons, List.drop_zero] at hb2 hp2
  have hsize := responseSize_eq b2 hi lo hhi hlo hb2
  obtain ⟨b3, c3, hc3, hb3, hl3, hp3, -⟩ := readAllLoop_reads fuel c2 (hi * 256 + lo)
    (List.replicate (hi * 256 + lo) 0) 0 hr2 (Nat.zero_le _) (by simp)
    (by rw [hp2]; simpa using hM) (by omega)
  rw [hp2] at hb3 hp3
  simp only [List.take_zero, List.nil_append, Nat.sub_zero, List.length_replicate] at hb3 hl3 hp3
  rw [List.take_of_length_le (by omega)] at hb3
  subst hb3
  have hdrop : conn.pending.drop (2 + (hi * 256 + lo)) = rest.drop (hi * 256 + lo) := by
    rw [hstream, Nat.add_comm]
    rfl
  have hres : resolveTCP fuel net sock job server
      = match sock.WriteToUDP (rest.take (hi * 256 + lo)) job.Client with
        | (_, true, s1) => some ⟨some .writingResponse, some c3, s1⟩
        | (written, false, s1) =>
          if written ≠ (rest.take (hi * 256 + lo)).length then
            some ⟨some (.responseShort written (rest.take (hi * 256 + lo)).length), some c3, s1⟩
          else some ⟨none, some c3, s1⟩ := by
    unfold resolveTCP writeAll readAll
    rw [hdial]
    simp only [hc1, hc2, hsize, hc3]
  rw [hres, hdrop]
  unfold Socket.WriteToUDP
  cases hk : sock.results 0 with
  | fail =>
    refine ⟨_, c3, rfl, rfl, hp3, rfl, ?_⟩
    intro n _ hn
    cases hn
  | ok n0 =>
    simp only
    by_cases hn0 : min n0 (rest.take (hi * 256 + lo)).length ≠ (rest.take (hi * 256 + lo)).length
    · rw [if_pos hn0]
      refine ⟨_, c3, rfl, rfl, hp3, rfl, ?_⟩
      intro n hle hn
      cases hn
      rw [List.length_take] at hn0
      omega
    · rw [if_neg hn0]
      refine ⟨_, c3, rfl, rfl, hp3, rfl, ?_⟩
      intro n hle hn
      cases hn
      refine ⟨rfl, ?_⟩
      simp only
      rw [List.take_of_length_le (by rw [List.length_take]; omega)]

/-- C12 at a response of three bytes, read two bytes at a time, with one more
byte behind it on the stream. -/
theorem resolveTCP_relays_response_witness :
    ((fun _ => some (chunkedConn [0, 3, 7, 8, 9, 10] 3 2) : Addr → Option TCPConn) ⟨[], 53⟩
        = some (chunkedConn [0, 3, 7, 8, 9, 10] 3 2) ∧
      (∀ k, ∃ n, 1 ≤ n ∧ (chunkedConn [0, 3, 7, 8, 9, 10] 3 2).writes k = .ok n) ∧
      (∀ k, ∃ n, 1 ≤ n ∧ (chunkedConn [0, 3, 7, 8, 9, 10] 3 2).reads k = .ok n) ∧
      0 < 256 ∧ 3 < 256 ∧
      (chunkedConn [0, 3, 7, 8, 9, 10] 3 2).pending = 0 :: 3 :: [7, 8, 9, 10] ∧
      0 * 256 + 3 ≤ [7, 8, 9, 10].length ∧
      (2 + exampleJob.Query.len < 100 ∧ 0 * 256 + 3 < 100)) ∧
    ∃ o c, resolveTCP 100 ⟨fun _ => none, fun _ => some (chunkedConn [0, 3, 7, 8, 9, 10] 3 2)⟩
        freshSocket exampleJob ⟨[], 53⟩ = some o ∧ o.conn = some c ∧
      c.pending = (chunkedConn [0, 3, 7, 8, 9, 10] 3 2).pending.drop (2 + (0 * 256 + 3)) ∧
      o.sock = (freshSocket.WriteToUDP ([7, 8, 9, 10].take (0 * 256 + 3)) exampleJob.Client).2.2 ∧
      ∀ n, 0 * 256 + 3 ≤ n → freshSocket.results 0 = .ok n →
        o.err = none ∧
        o.sock.sent = freshSocket.sent ++ [([7, 8, 9, 10].take (0 * 256 + 3), exampleJob.Client)] :=
  ⟨⟨rfl, fun _ => ⟨3, by decide, rfl⟩, fun _ => ⟨2, by decide, rfl⟩, by decide, by decide, rfl,
      by decide, by decide, by decide⟩,
    resolveTCP_relays_response 100
      ⟨fun _ => none, fun _ => some (chunkedConn [0, 3, 7, 8, 9, 10] 3 2)⟩
      freshSocket exampleJob ⟨[], 53⟩ (chunkedConn [0, 3, 7, 8, 9, 10] 3 2) 0 3 [7, 8, 9, 10] rfl
      (fun _ => ⟨3, by decide, rfl⟩) (fun _ => ⟨2, by decide, rfl⟩) (by decide) (by decide) rfl
      (by decide) ⟨by decide, by decide⟩⟩

/-! ## Forwarder: datagram relay -/

/-- The bytes `resolveUDP` hands to `WriteToUDP` are the bytes read. -/
theorem response_take (data : List Nat) (h : data.length ≤ 1536) :
    (copyBytes makePacketBuffer.elems data).take data.length = data := by
  unfold copyBytes makePacketBuffer
  simp only [List.length_replicate]
  rw [List.take_of_length_le h, List.take_left' rfl]

/-- C13: when the upstream is dialed, takes the query whole and answers with a
datagram of N <= 1536 bytes that is read without error, `resolveUDP` returns
having sent the upstream one datagram, the unmodified query, and having called
`WriteToUDP` once, with the N reply bytes and the address of the client; on a
listening socket that takes the datagram whole it returns nil and that
datagram is the one datagram sent. -/
theorem resolveUDP_relays_reply (net : Network) (sock : Socket) (job : Job) (server : Addr)
    (conn : UDPConn) (reply : List Nat) (later : List (List Nat))
    (hdial : net.DialUDP server = some conn)
    (hwrite : ∃ n, job.Query.len ≤ n ∧ conn.writes 0 = .ok n)
    (hread : ∃ n, conn.reads 0 = .ok n)
    (hinbox : conn.inbox = reply :: later)
    (hN : reply.length ≤ 1536) :
    ∃ o c, resolveUDP net sock job server = some o ∧ o.conn = some c ∧
      c.sent = conn.sent ++ [job.Query.elems] ∧ c.inbox = later ∧
      o.sock = (sock.WriteToUDP reply job.Client).2.2 ∧
      ∀ n, reply.length ≤ n → sock.results 0 = .ok n →
        o.err = none ∧ o.sock.sent = sock.sent ++ [(reply, job.Client)] := by
  obtain ⟨nw, hnw, hkw⟩ := hwrite
  obtain ⟨nr, hkr⟩ := hread
  have htake : (reply.take makePacketBuffer.len).length = reply.length := by
    rw [List.length_take]
    unfold makePacketBuffer Slice.len
    simp only [List.length_replicate]
    omega
  have hdata : reply.take makePacketBuffer.len = reply := by
    apply List.take_of_length_le
    unfold makePacketBuffer Slice.len
    simp only [List.length_replicate]
    exact hN
  have hres : resolveUDP net sock job server
      = match sock.WriteToUDP reply job.Client with
        | (_, true, s1) =>
          some ⟨some .writingResponse,
            some ⟨conn.sent ++ [job.Query.elems], later, conn.writes.rest, conn.reads.rest⟩, s1⟩
        | (written, false, s1) =>
          if written ≠ reply.length then
            some ⟨some (.responseShort written reply.length),
              some ⟨conn.sent ++ [job.Query.elems], later, conn.writes.rest, conn.reads.rest⟩, s1⟩
          else
            some ⟨none,
              some ⟨conn.sent ++ [job.Query.elems], later, conn.writes.rest, conn.reads.rest⟩,
              s1⟩ := by
    unfold resolveUDP UDPConn.Write
    rw [hdial]
    simp only [hkw]
    unfold Slice.len at hnw
    rw [if_neg (by unfold Slice.len; omega)]
    unfold UDPConn.Read
    simp only [hkr, hinbox, hdata, response_take reply hN,
      List.take_of_length_le hnw]
  rw [hres]
  unfold Socket.WriteToUDP
  cases hk : sock.results 0 with
  | fail =>
    refine ⟨_, _, rfl, rfl, rfl, rfl, rfl, ?_⟩
    intro n _ hn
    cases hn
  | ok n0 =>
    simp only
    by_cases hn0 : min n0 reply.length ≠ reply.length
    · rw [if_pos hn0]
      refine ⟨_, _, rfl, rfl, rfl, rfl, rfl, ?_⟩
      intro n hle hn
      cases hn
      omega
    · rw [if_neg hn0]
      refine ⟨_, _, rfl, rfl, rfl, rfl, rfl, ?_⟩
      intro n hle hn
      cases hn
      refine ⟨rfl, ?_⟩
      simp only
      rw [List.take_of_length_le hle]

/-- C13 at the example query and a reply of four bytes. -/
theorem resolveUDP_relays_reply_witness :
    ((fun _ => some (answeringConn [[1, 2, 3, 4]]) : Addr → Option UDPConn) ⟨[], 53⟩
        = some (answeringConn [[1, 2, 3, 4]]) ∧
      (∃ n, exampleJob.Query.len ≤ n ∧ (answeringConn [[1, 2, 3, 4]]).writes 0 = .ok n) ∧
      (∃ n, (answeringConn [[1, 2, 3, 4]]).reads 0 = .ok n) ∧
      (answeringConn [[1, 2, 3, 4]]).inbox = [1, 2, 3, 4] :: [] ∧
      ([1, 2, 3, 4] : List Nat).length ≤ 1536) ∧
    ∃ o c, resolveUDP ⟨fun _ => some (answeringConn [[1, 2, 3, 4]]), fun _ => none⟩ freshSocket
        exampleJob ⟨[], 53⟩ = some o ∧ o.conn = some c ∧
      c.sent = (answeringConn [[1, 2, 3, 4]]).sent ++ [exampleJob.Query.elems] ∧ c.inbox = [] ∧
      o.sock = (freshSocket.WriteToUDP [1, 2, 3, 4] exampleJob.Client).2.2 ∧
      ∀ n, ([1, 2, 3, 4] : List Nat).length ≤ n → freshSocket.results 0 = .ok n →
        o.err = none ∧ o.sock.sent = freshSocket.sent ++ [([1, 2, 3, 4], exampleJob.Client)] :=
  ⟨⟨rfl, ⟨65535, by decide, rfl⟩, ⟨65535, rfl⟩, rfl, by decide⟩,
    resolveUDP_relays_reply ⟨fun _ => some (answeringConn [[1, 2, 3, 4]]), fun _ => none⟩
      freshSocket exampleJob ⟨[], 53⟩ (answeringConn [[1, 2, 3, 4]]) [1, 2, 3, 4] [] rfl
      ⟨65535, by decide, rfl⟩ ⟨65535, rfl⟩ rfl (by decide)⟩

/-! ## Forwarder: failures -/

/-- C14: when dialing the upstream fails, or writing the query fails or is
short, or reading the response (its length prefix or its body) fails, then
`resolveUDP` and `resolveTCP` return an error and leave the listening socket
as it was: nothing is written to the client. -/
theorem resolve_failure_sends_nothing (fuel : Nat) (net : Network) (sock : Socket) (job : Job)
    (server : Addr) :
    ((net.DialUDP server = none ∨
        ∃ conn, net.DialUDP server = some conn ∧
          (conn.writes 0 = .fail ∨
            (∃ n, n < job.Query.len ∧ conn.writes 0 = .ok n) ∨
            (∃ n, job.Query.len ≤ n ∧ conn.writes 0 = .ok n ∧ conn.reads 0 = .fail))) →
      ∃ e c, resolveUDP net sock job server = some ⟨some e, c, sock⟩) ∧
    ((net.DialTCP server = none ∨
        ∃ conn, net.DialTCP server = some conn ∧
          ((∃ c1, writeAll fuel (queryBuffer job.Query.elems) conn = some (true, c1)) ∨
            ∃ c1, writeAll fuel (queryBuffer job.Query.elems) conn = some (false, c1) ∧
              ((∃ b c2, readAll fuel c1 2 (queryBuffer job.Query.elems) = some (true, b, c2)) ∨
                ∃ b2 c2 size,
                  readAll fuel c1 2 (queryBuffer job.Query.elems) = some (false, b2, c2) ∧
                  (Slice.slice ⟨b2, []⟩ 0 2).bind Uint16 = some size ∧
                  ∃ b c3, readAll fuel c2 size (List.replicate size 0) = some (true, b, c3)))) →
      ∃ e c, resolveTCP fuel net sock job server = some ⟨some e, c, sock⟩) := by
  constructor
  · rintro (hdial | ⟨conn, hdial, hfail | ⟨n, hn, hk⟩ | ⟨n, hn, hk, hread⟩⟩)
    · refine ⟨.dialing, none, ?_⟩
      unfold resolveUDP
      rw [hdial]
    · unfold resolveUDP UDPConn.Write
      rw [hdial]
      simp only [hfail]
      exact ⟨_, _, rfl⟩
    · unfold resolveUDP UDPConn.Write
      rw [hdial]
      simp only [hk]
      rw [if_pos (by unfold Slice.len at hn ⊢; omega)]
      exact ⟨_, _, rfl⟩
    · unfold resolveUDP UDPConn.Write
      rw [hdial]
      simp only [hk]
      rw [if_neg (by unfold Slice.len at hn ⊢; omega)]
      unfold UDPConn.Read
      simp only [hread]
      exact ⟨_, _, rfl⟩
  · rintro (hdial | ⟨conn, hdial, ⟨c1, hw⟩ | ⟨c1, hw, ⟨b, c2, hr⟩ | ⟨b2, c2, size, hr, hsize, b, c3, hr3⟩⟩⟩)
    · refine ⟨.dialing, none, ?_⟩
      unfold resolveTCP
      rw [hdial]
    · refine ⟨.writingQuery, some c1, ?_⟩
      unfold resolveTCP
      rw [hdial]
      simp only [hw]
    · refine ⟨.readingResponseSize, some c2, ?_⟩
      unfold resolveTCP
      rw [hdial]
      simp only [hw, hr]
    · refine ⟨.readingResponse, some c3, ?_⟩
      unfold resolveTCP
      rw [hdial]
      simp only [hw, hr, hsize, hr3]

/-- C14 at an upstream that refuses the datagram association, and at an
upstream whose stream ends after one of the three bytes it announced. -/
theorem resolve_failure_sends_nothing_witness :
    (((fun _ => none : Addr → Option UDPConn) ⟨[], 53⟩ = none ∧
        ∃ e c, resolveUDP ⟨fun _ => none, fun _ => some (chunkedConn [0, 3, 7] 3 2)⟩ freshSocket
          exampleJob ⟨[], 53⟩ = some ⟨some e, c, freshSocket⟩) ∧
      ((∃ size, ∃ b c3, readAll 100 (chunkedConn [7] 3 2) size (List.replicate size 0)
          = some (true, b, c3)) ∧
        ∃ e c, resolveTCP 100 ⟨fun _ => none, fun _ => some (chunkedConn [0, 3, 7] 3 2)⟩
          freshSocket exampleJob ⟨[], 53⟩ = some ⟨some e, c, freshSocket⟩)) :=
  ⟨⟨rfl, (resolve_failure_sends_nothing 100
      ⟨fun _ => none, fun _ => some (chunkedConn [0, 3, 7] 3 2)⟩ freshSocket exampleJob
      ⟨[], 53⟩).1 (Or.inl rfl)⟩,
    ⟨⟨3, _, _, rfl⟩, (resolve_failure_sends_nothing 100
      ⟨fun _ => none, fun _ => some (chunkedConn [0, 3, 7] 3 2)⟩ freshSocket exampleJob
      ⟨[], 53⟩).2 (Or.inr ⟨_, rfl, Or.inr ⟨_, rfl, Or.inr ⟨_, _, 3, rfl, rfl, _, _, rfl⟩⟩⟩)⟩⟩

/-! ## Configuration: the value of `-upstream` -/

/-- C15: for the value of the usage text, `.tcp.local=tcp://192.0.2.100:1053`,
`Set` returns the error "protocol must be udp* or tcp*" whatever the
resolvers do and whatever the table holds: the text after the first `/` of
`tcp://192.0.2.100:1053`, taken as the protocol, is `/192.0.2.100:1053`. The
same upstream in the form `host:port/proto` is accepted. -/
theorem Set_rejects_usage_value (env : Env) (us : Upstreams) :
    Set env us (str ".tcp.local=tcp://192.0.2.100:1053") = .error .protocol ∧
    SplitN2 (str "tcp://192.0.2.100:1053") 47 = [str "tcp:", str "/192.0.2.100:1053"] ∧
    Set insertionEnv [] (str ".tcp.local=192.0.2.100:1053/tcp")
      = .ok [⟨str ".tcp.local.", .TCP, ⟨str "192.0.2.100:1053", 0⟩⟩] := by
  refine ⟨rfl, by decide, by decide⟩

/-- C16: the bracketed IPv6 address with a port `[2001:db8::1]:5353` is not
handed to the resolver unchanged: `:53` is appended behind its port. An
address without a colon, an IPv6 address without a port, bare or bracketed,
and an IPv4 address with a port are handled as the default port asks for. -/
theorem setAddress_appends_port_to_bracketed_port :
    setAddress (str "[2001:db8::1]:5353") = some (str "[2001:db8::1]:5353:53") ∧
    Set insertionEnv [] (str "v6.example=[2001:db8::1]:5353")
      = .ok [⟨str "v6.example.", .UDP, ⟨str "[2001:db8::1]:5353:53", 0⟩⟩] ∧
    setAddress (str "192.0.2.200") = some (str "192.0.2.200:53") ∧
    setAddress (str "2001:db8::1") = some (str "[2001:db8::1]:53") ∧
    setAddress (str "[2001:db8::1]") = some (str "[2001:db8::1]:53") ∧
    setAddress (str "192.0.2.100:1053") = some (str "192.0.2.100:1053") := by
  refine ⟨by decide, by decide, by decide, by decide, by decide, by decide⟩

/-! ## Domain extractor: the cases of failure -/

/-- When the body of the loop returns at offset 0, the loop arrives nowhere
else. -/
theorem Reaches_start_only {labels : Slice} {r : ParseResult}
    (h0 : parseDomainBody labels 0 [] = .done r) {i : Nat} {d : GoString}
    (h : Reaches labels i d) : i = 0 ∧ d = [] := by
  induction h with
  | start => exact ⟨rfl, rfl⟩
  | step _ hb ih =>
    obtain ⟨rfl, rfl⟩ := ih
    rw [h0] at hb
    cases hb

/-- An error of the loop comes from a length byte the loop arrived at that is
at least `maxLabelLength` or that reaches beyond the end of the buffer. -/
theorem parseDomainLoop_error (labels : Slice) (e : ParseError) :
    ∀ (fuel i : Nat) (d : GoString), Reaches labels i d →
      parseDomainLoop fuel labels i d = some (.error e) →
      ∃ j c size, Reaches labels j c ∧ j < maxDomainLength ∧ labels.index j = some size ∧
        (maxLabelLength ≤ size ∨ labels.len < j + size) := by
  intro fuel
  induction fuel with
  | zero =>
    intro i d _ h
    simp [parseDomainLoop] at h
  | succ n ih =>
    intro i d hreach h
    unfold parseDomainLoop at h
    cases hb : parseDomainBody labels i d with
    | next j c =>
      rw [hb] at h
      exact ih j c (.step hreach hb) h
    | done r0 =>
      rw [hb] at h
      have hr0 : r0 = .error e := by simpa using h
      subst hr0
      unfold parseDomainBody at hb
      split at hb
      next hc =>
        split at hb
        · cases hb
        next size hsize =>
          split at hb
          · cases hb
          · split at hb
            next hend => exact ⟨i, d, size, hreach, hc.1, hsize, Or.inr hend⟩
            · split at hb
              next hbig => exact ⟨i, d, size, hreach, hc.1, hsize, Or.inl hbig⟩
              · split at hb <;> cases hb
      · cases hb

/-- C18 as stated fails: the length byte 64 has not its two top bits set, the
label of 64 bytes it announces lies inside the buffer and is followed by a
zero byte, it is the only length byte the loop arrives at, and `parseDomain`
returns the error "compressed question label not supported". -/
theorem parseDomain_rejects_label64 :
    parseDomain (oneLabel 64) = some (.error .compressed) ∧
    ∀ i d size, Reaches (oneLabel 64) i d → (oneLabel 64).index i = some size →
      ¬ (0xC0 ≤ size ∨ (oneLabel 64).len < i + 1 + size) := by
  refine ⟨by decide, ?_⟩
  intro i d size hreach hsize
  obtain ⟨rfl, rfl⟩ := Reaches_start_only
    (show parseDomainBody (oneLabel 64) 0 [] = .done (.error .compressed) by decide) hreach
  have h64 : size = 64 := by
    have h0 : (oneLabel 64).index 0 = some 64 := by decide
    rw [h0] at hsize
    exact (Option.some.inj hsize).symm
  subst h64
  decide

/-- The label of exactly `maxLabelLength` = 63 bytes is rejected as well. -/
theorem parseDomain_rejects_label63 :
    parseDomain (oneLabel 63) = some (.error .compressed) := by
  decide

/-- C18, amended: on a buffer in which the loop arrives at no length byte equal
to 63, `parseDomain` returns an error only when the loop arrived at a length
byte that is above `maxLabelLength`, whether or not its two top bits are set,
or that claims bytes beyond the end of the buffer. -/
theorem parseDomain_error_cases (labels : Slice) (e : ParseError)
    (hno63 : ∀ i d, Reaches labels i d → labels.index i ≠ some 63)
    (h : parseDomain labels = some (.error e)) :
    ∃ i d size, Reaches labels i d ∧ i < maxDomainLength ∧ labels.index i = some size ∧
      (maxLabelLength < size ∨ labels.len < i + 1 + size) := by
  obtain ⟨i, d, size, hreach, hi, hsize, hcase⟩ :=
    parseDomainLoop_error labels e _ 0 [] .start h
  refine ⟨i, d, size, hreach, hi, hsize, ?_⟩
  rcases hcase with hbig | hend
  · left
    have hne : size ≠ 63 := by
      rintro rfl
      exact hno63 i d hreach hsize
    unfold maxLabelLength at hbig ⊢
    omega
  · right
    omega

/-- C18, amended, at the label of 64 bytes. -/
theorem parseDomain_error_cases_witness :
    ((∀ i d, Reaches (oneLabel 64) i d → (oneLabel 64).index i ≠ some 63) ∧
      parseDomain (oneLabel 64) = some (.error .compressed)) ∧
    ∃ i d size, Reaches (oneLabel 64) i d ∧ i < maxDomainLength ∧
      (oneLabel 64).index i = some size ∧
      (maxLabelLength < size ∨ (oneLabel 64).len < i + 1 + size) :=
  ⟨⟨fun i d hreach => by
      obtain ⟨rfl, rfl⟩ := Reaches_start_only
        (show parseDomainBody (oneLabel 64) 0 [] = .done (.error .compressed) by decide) hreach
      decide,
      by decide⟩,
    parseDomain_error_cases (oneLabel 64) .compressed
      (fun i d hreach => by
        obtain ⟨rfl, rfl⟩ := Reaches_start_only
          (show parseDomainBody (oneLabel 64) 0 [] = .done (.error .compressed) by decide) hreach
        decide)
      (by decide)⟩

/-! ## Configuration: the suffix of an entry -/

theorem IndexByte_take (c : Nat) :
    ∀ s : GoString, 0 ≤ IndexByte s c → s.take (IndexByte s c).toNat = beforeFirst c s := by
  intro s
  induction s with
  | nil =>
    intro h
    simp [IndexByte] at h
  | cons b bs ih =>
    intro h
    unfold IndexByte at h ⊢
    unfold beforeFirst
    by_cases hb : b = c
    · rw [if_pos hb]
      simp [List.takeWhile, hb]
    · rw [if_neg hb] at h ⊢
      simp only at h ⊢
      by_cases hr : IndexByte bs c < 0
      · rw [if_pos hr] at h
        omega
      · rw [if_neg hr]
        have hnat : (IndexByte bs c + 1).toNat = (IndexByte bs c).toNat + 1 := by omega
        rw [hnat, List.take_succ_cons, ih (by omega)]
        simp [List.takeWhile, hb, beforeFirst]

theorem SplitN2_first {s a b : GoString} {sep : Nat} (h : SplitN2 s sep = [a, b]) :
    a = beforeFirst sep s := by
  unfold SplitN2 at h
  simp only at h
  split at h
  · simp at h
  next hi =>
    simp only [List.cons.injEq, and_true] at h
    rw [← h.1]
    exact IndexByte_take sep s (by omega)

/-- The suffix `Set` stores is the trailing-dot form of the text it is given. -/
theorem Set_domain (domain0 : GoString) :
    (if !HasSuffix domain0 (str ".") then domain0 ++ str "." else domain0)
      = withTrailingDot domain0 := by
  unfold withTrailingDot
  by_cases h : str "." <:+ domain0
  · rw [if_pos h]
    simp [(HasSuffix_iff domain0 (str ".")).2 h]
  · rw [if_neg h]
    have : HasSuffix domain0 (str ".") = false := by
      rw [← Bool.not_eq_true, HasSuffix_iff]
      exact h
    simp [this]

theorem withTrailingDot_suffix (d : GoString) : str "." <:+ withTrailingDot d := by
  unfold withTrailingDot
  split
  · assumption
  · exact List.suffix_append _ _

/-- A suffix in trailing-dot form is not empty, and is `.` when it is one byte
long. -/
theorem trailingDot_facts {d : GoString} (h : str "." <:+ d) :
    d ≠ [] ∧ (d.length = 1 → d = str ".") := by
  constructor
  · exact h.ne_nil (by decide)
  · intro hl
    exact (h.eq_of_length (by rw [hl]; rfl)).symm

/-- A successful `Set` appends one entry, whose suffix is the trailing-dot form
of the text before the first `=`, and which the same value adds to every
table. -/
theorem Set_ok_entry {env : Env} {us t : Upstreams} {value : GoString}
    (h : Set env us value = .ok t) :
    ∃ u, t = env.sortTable (us ++ [u]) ∧
      u.Domain = withTrailingDot (beforeFirst 61 value) ∧ Adds env value u := by
  unfold Set at h
  split at h
  next domain0 rest hsplit =>
    dsimp only at h
    have hdom := SplitN2_first hsplit
    split at h
    · cases h
    next address haddr =>
      split at h
      next htcp =>
        split at h
        · cases h
        next server hres =>
          cases h
          refine ⟨_, rfl, ?_, ?_⟩
          · simp only
            rw [Set_domain, hdom]
          · intro us2
            unfold Set
            rw [hsplit]
            dsimp only
            rw [haddr]
            simp only [htcp, if_true, hres]
      next htcp =>
        split at h
        next hudp =>
          split at h
          · cases h
          next server hres =>
            cases h
            refine ⟨_, rfl, ?_, ?_⟩
            · simp only
              rw [Set_domain, hdom]
            · intro us2
              unfold Set
              rw [hsplit]
              dsimp only
              rw [haddr]
              simp only [htcp, hudp, if_true, if_false, hres]
              simp
        · cases h
  · cases h

/-- Every entry of a table built by `Set` calls from a table of entries in
trailing-dot form is in trailing-dot form. -/
theorem SetAll_trailing_dot (env : Env) (hsort : SortContract env.sortTable) :
    ∀ (vs : List GoString) (us t : Upstreams), (∀ u ∈ us, str "." <:+ u.Domain) →
      SetAll env us vs = .ok t → ∀ u ∈ t, str "." <:+ u.Domain := by
  intro vs
  induction vs with
  | nil =>
    intro us t hus h
    unfold SetAll at h
    cases h
    exact hus
  | cons v vs ih =>
    intro us t hus h
    unfold SetAll at h
    cases hv : Set env us v with
    | error e =>
      rw [hv] at h
      cases h
    | ok next =>
      rw [hv] at h
      obtain ⟨u, rfl, hdom, -⟩ := Set_ok_entry hv
      refine ih _ t ?_ h
      intro w hw
      rcases List.mem_append.1 ((hsort _).1.mem_iff.1 hw) with hw | hw
      · exact hus w hw
      · rw [List.mem_singleton.1 hw, hdom]
        exact withTrailingDot_suffix _

/-- C19: with a `sort.Sort` that meets its contract, the entry a successful
`Set` adds has as `Domain` the text before the first `=` of the argument,
with `.` appended exactly when that text does not end with `.`; the `Domain`
is not empty and ends with `.`. Hence in every table built by `Set` calls from
the empty table every entry has a non-empty `Domain` that ends with `.`, the
only `Domain` of length 1 is `.`, and every `.` entry stands behind every
entry with another `Domain`. -/
theorem Set_domain_trailing_dot (env : Env) (hsort : SortContract env.sortTable)
    (us t : Upstreams) (value : GoString) (h : Set env us value = .ok t) :
    (∃ u, t.Perm (us ++ [u]) ∧ u.Domain = withTrailingDot (beforeFirst 61 value) ∧
      u.Domain ≠ [] ∧ str "." <:+ u.Domain) ∧
    ∀ (vs : List GoString) (final : Upstreams), SetAll env [] vs = .ok final →
      (∀ u ∈ final, u.Domain ≠ [] ∧ str "." <:+ u.Domain ∧
        (u.Domain.length = 1 → u.Domain = str ".")) ∧
      ∀ (i j : Nat) (a b : Upstream), final[i]? = some a → final[j]? = some b →
        a.Domain = str "." → b.Domain ≠ str "." → j < i := by
  constructor
  · obtain ⟨u, rfl, hdom, -⟩ := Set_ok_entry h
    have hsuf : str "." <:+ u.Domain := hdom ▸ withTrailingDot_suffix _
    exact ⟨u, (hsort _).1, hdom, (trailingDot_facts hsuf).1, hsuf⟩
  · intro vs final hfinal
    have hdots := SetAll_trailing_dot env hsort vs [] final (fun u hu => by cases hu) hfinal
    have hsorted := SetAll_sorted env hsort vs [] final List.Pairwise.nil hfinal
    refine ⟨fun u hu => ⟨(trailingDot_facts (hdots u hu)).1, hdots u hu,
      (trailingDot_facts (hdots u hu)).2⟩, ?_⟩
    intro i j a b hi hj ha hb
    by_contra hlt
    have hij : i ≠ j := by
      rintro rfl
      rw [hi] at hj
      cases hj
      exact hb ha
    have hilt : i < j := by omega
    obtain ⟨hil, hia⟩ := List.getElem?_eq_some_iff.1 hi
    obtain ⟨hjl, hjb⟩ := List.getElem?_eq_some_iff.1 hj
    rw [SortedTable, List.pairwise_iff_getElem] at hsorted
    have hle := hsorted i j hil hjl hilt
    rw [hia, hjb, ha] at hle
    have hbdot := hdots b (List.getElem?_mem hj)
    have hb1 : b.Domain.length = 1 := by
      have h1 := hbdot.length_le
      have h2 : (str ".").length = 1 := rfl
      omega
    exact hb ((trailingDot_facts hbdot).2 hb1)

/-- C19 at the insertion of `example.com` into a table that holds the default
route. -/
theorem Set_domain_trailing_dot_witness :
    (SortContract insertionEnv.sortTable ∧
      Set insertionEnv [entry "." ⟨str "192.0.2.200:53", 0⟩] (str "example.com=192.0.2.1")
        = .ok [entry "example.com." ⟨str "192.0.2.1:53", 0⟩, entry "." ⟨str "192.0.2.200:53", 0⟩]) ∧
    ((∃ u, [entry "example.com." ⟨str "192.0.2.1:53", 0⟩,
          entry "." ⟨str "192.0.2.200:53", 0⟩].Perm ([entry "." ⟨str "192.0.2.200:53", 0⟩] ++ [u]) ∧
        u.Domain = withTrailingDot (beforeFirst 61 (str "example.com=192.0.2.1")) ∧
        u.Domain ≠ [] ∧ str "." <:+ u.Domain) ∧
      ∀ (vs : List GoString) (final : Upstreams), SetAll insertionEnv [] vs = .ok final →
        (∀ u ∈ final, u.Domain ≠ [] ∧ str "." <:+ u.Domain ∧
          (u.Domain.length = 1 → u.Domain = str ".")) ∧
        ∀ (i j : Nat) (a b : Upstream), final[i]? = some a → final[j]? = some b →
          a.Domain = str "." → b.Domain ≠ str "." → j < i) :=
  ⟨⟨insertionEnv_sortContract, by decide⟩,
    Set_domain_trailing_dot insertionEnv insertionEnv_sortContract _ _
      (str "example.com=192.0.2.1") (by decide)⟩

/-! ## Routing does not depend on the order of configuration -/

/-- A value adds one entry only. -/
theorem Adds_unique {env : Env} (hsort : SortContract env.sortTable) {v : GoString}
    {u w : Upstream} (hu : Adds env v u) (hw : Adds env v w) : u = w := by
  have h := (hu []).symm.trans (hw [])
  simp only [SetResult.ok.injEq, List.nil_append] at h
  have h1 := List.perm_singleton.1 (hsort [u]).1
  have h2 := List.perm_singleton.1 (hsort [w]).1
  rw [h1, h2] at h
  exact List.head_eq_of_cons_eq h

/-- The table after a sequence of successful `Set` calls is a rearrangement of
the table before and the entries the values add. -/
theorem SetAll_entries (env : Env) (hsort : SortContract env.sortTable) :
    ∀ (vs : List GoString) (us t : Upstreams), SetAll env us vs = .ok t →
      ∃ es, List.Forall₂ (Adds env) vs es ∧ t.Perm (us ++ es) := by
  intro vs
  induction vs with
  | nil =>
    intro us t h
    unfold SetAll at h
    cases h
    exact ⟨[], List.Forall₂.nil, by simp⟩
  | cons v vs ih =>
    intro us t h
    unfold SetAll at h
    cases hv : Set env us v with
    | error e =>
      rw [hv] at h
      cases h
    | ok next =>
      rw [hv] at h
      obtain ⟨u, rfl, -, hadds⟩ := Set_ok_entry hv
      obtain ⟨es, hes, hperm⟩ := ih _ t h
      refine ⟨u :: es, List.Forall₂.cons hadds hes, ?_⟩
      refine hperm.trans (((hsort _).1.append_right es).trans ?_)
      simp

theorem Forall₂_map_of_functional {R : GoString → Upstream → Prop} (f : GoString → Upstream)
    (hf : ∀ v u, R v u → u = f v) :
    ∀ (vs : List GoString) (es : List Upstream), List.Forall₂ R vs es → es = vs.map f := by
  intro vs es h
  induction h with
  | nil => rfl
  | cons hr _ ih =>
    rw [List.map_cons, ← hf _ _ hr, ← ih]

/-- Two sequences of values that are rearrangements of each other build
tables that are rearrangements of each other. -/
theorem SetAll_perm (env : Env) (hsort : SortContract env.sortTable)
    (vs1 vs2 : List GoString) (t1 t2 : Upstreams) (hperm : vs1.Perm vs2)
    (h1 : SetAll env [] vs1 = .ok t1) (h2 : SetAll env [] vs2 = .ok t2) : t1.Perm t2 := by
  classical
  obtain ⟨es1, hes1, hp1⟩ := SetAll_entries env hsort vs1 [] t1 h1
  obtain ⟨es2, hes2, hp2⟩ := SetAll_entries env hsort vs2 [] t2 h2
  let f : GoString → Upstream := fun v =>
    if h : ∃ u, Adds env v u then h.choose else ⟨[], .UDP, ⟨[], 0⟩⟩
  have hf : ∀ v u, Adds env v u → u = f v := by
    intro v u hu
    have hex : ∃ u, Adds env v u := ⟨u, hu⟩
    have hfv : f v = hex.choose := dif_pos hex
    rw [hfv]
    exact Adds_unique hsort hu hex.choose_spec
  rw [Forall₂_map_of_functional f hf vs1 es1 hes1, List.nil_append] at hp1
  rw [Forall₂_map_of_functional f hf vs2 es2 hes2, List.nil_append] at hp2
  exact hp1.trans ((hperm.map f).trans hp2.symm)

/-- Two sorted tables with the same entries, no two of them with the same
`Domain`, resolve every domain alike. -/
theorem Find_perm (t1 t2 : Upstreams) (d : GoString) (hperm : t1.Perm t2)
    (hs1 : SortedTable t1) (hs2 : SortedTable t2)
    (hdistinct : (t1.map fun u => u.Domain).Nodup) : Find t1 d = Find t2 d := by
  cases h1 : Find t1 d with
  | none =>
    symm
    rw [Find_eq_none] at h1 ⊢
    intro u hu
    exact h1 u (hperm.mem_iff.2 hu)
  | some u =>
    obtain ⟨hu1, hud, hmax1⟩ := Find_eq_some t1 d u hs1 h1
    cases h2 : Find t2 d with
    | none =>
      rw [Find_eq_none] at h2
      exact absurd hud (h2 u (hperm.mem_iff.1 hu1))
    | some w =>
      obtain ⟨hw2, hwd, hmax2⟩ := Find_eq_some t2 d w hs2 h2
      have hw1 : w ∈ t1 := hperm.mem_iff.2 hw2
      have hlen : u.Domain.length = w.Domain.length :=
        Nat.le_antisymm (hmax2 u (hperm.mem_iff.1 hu1) hud) (hmax1 w hw1 hwd)
      have hdom : u.Domain = w.Domain :=
        (List.suffix_of_suffix_length_le hud hwd (Nat.le_of_eq hlen)).eq_of_length hlen
      rw [List.inj_on_of_nodup_map hdistinct hu1 hw1 hdom]

/-- C20: with a `sort.Sort` that meets its contract, two sequences of `Set`
calls that are rearrangements of each other and add entries with pairwise
distinct suffixes build tables on which `Find` returns the same entry, or
nothing for both, for every domain. -/
theorem Find_order_independent (env : Env) (hsort : SortContract env.sortTable)
    (vs1 vs2 : List GoString) (t1 t2 : Upstreams) (d : GoString) (hperm : vs1.Perm vs2)
    (h1 : SetAll env [] vs1 = .ok t1) (h2 : SetAll env [] vs2 = .ok t2)
    (hdistinct : (t1.map fun u => u.Domain).Nodup) : Find t1 d = Find t2 d :=
  Find_perm t1 t2 d (SetAll_perm env hsort vs1 vs2 t1 t2 hperm h1 h2)
    (SetAll_sorted env hsort vs1 [] t1 List.Pairwise.nil h1)
    (SetAll_sorted env hsort vs2 [] t2 List.Pairwise.nil h2) hdistinct

/-- C20 at two suffixes of equal length and the default route, configured in
two orders. -/
theorem Find_order_independent_witness :
    (SortContract insertionEnv.sortTable ∧
      [str ".=192.0.2.200", str "a.com=192.0.2.1", str "b.com=192.0.2.2/tcp"].Perm
        [str "b.com=192.0.2.2/tcp", str ".=192.0.2.200", str "a.com=192.0.2.1"] ∧
      SetAll insertionEnv [] [str ".=192.0.2.200", str "a.com=192.0.2.1", str "b.com=192.0.2.2/tcp"]
        = .ok [⟨str "a.com.", .UDP, ⟨str "192.0.2.1:53", 0⟩⟩,
            ⟨str "b.com.", .TCP, ⟨str "192.0.2.2:53", 0⟩⟩,
            ⟨str ".", .UDP, ⟨str "192.0.2.200:53", 0⟩⟩] ∧
      SetAll insertionEnv [] [str "b.com=192.0.2.2/tcp", str ".=192.0.2.200", str "a.com=192.0.2.1"]
        = .ok [⟨str "b.com.", .TCP, ⟨str "192.0.2.2:53", 0⟩⟩,
            ⟨str "a.com.", .UDP, ⟨str "192.0.2.1:53", 0⟩⟩,
            ⟨str ".", .UDP, ⟨str "192.0.2.200:53", 0⟩⟩] ∧
      (([⟨str "a.com.", .UDP, ⟨str "192.0.2.1:53", 0⟩⟩,
          ⟨str "b.com.", .TCP, ⟨str "192.0.2.2:53", 0⟩⟩,
          ⟨str ".", .UDP, ⟨str "192.0.2.200:53", 0⟩⟩] : Upstreams).map fun u => u.Domain).Nodup) ∧
    Find [⟨str "a.com.", .UDP, ⟨str "192.0.2.1:53", 0⟩⟩,
        ⟨str "b.com.", .TCP, ⟨str "192.0.2.2:53", 0⟩⟩,
        ⟨str ".", .UDP, ⟨str "192.0.2.200:53", 0⟩⟩] (str "www.b.com.")
      = Find [⟨str "b.com.", .TCP, ⟨str "192.0.2.2:53", 0⟩⟩,
        ⟨str "a.com.", .UDP, ⟨str "192.0.2.1:53", 0⟩⟩,
        ⟨str ".", .UDP, ⟨str "192.0.2.200:53", 0⟩⟩] (str "www.b.com.") :=
  ⟨⟨insertionEnv_sortContract, by decide, by decide, by decide, by decide⟩,
    Find_order_independent insertionEnv insertionEnv_sortContract
      [str ".=192.0.2.200", str "a.com=192.0.2.1", str "b.com=192.0.2.2/tcp"]
      [str "b.com=192.0.2.2/tcp", str ".=192.0.2.200", str "a.com=192.0.2.1"] _ _
      (str "www.b.com.") (by decide) (by decide) (by decide) (by decide)⟩

end Unnamed
